import Mathlib

/-!
Shallow embedding of the Posterize-Image core (posterize.js, svg-export.js)
and proofs about it.

Conventions of the embedding:
* JS `Uint8ClampedArray` RGBA buffers become `ImageBuffer` values holding a
  list of `Pixel` records (natural-number channels); well-formedness
  (channels ≤ 255, `data.length = width * height`) is a hypothesis where a
  theorem needs it, since the JS typed array guarantees it.
* JS floating-point numbers become rationals (ℚ).
* `colorDistance` in the source returns `Math.sqrt` of a sum of squares and
  is only ever used in order comparisons (`<`, `≤`, `>`) between distances
  sharing the same operands, or against a constant; since `Real.sqrt` is
  strictly monotone on nonnegatives, the embedding uses the squared distance
  `colorDistSq` and compares against squared constants, which produces
  exactly the same branches as the source.
* The recursive `simplifyPath` and the `floodFill` worklist loop are
  embedded with explicit fuel; the wrappers pass the same bound the source's
  own step budget / termination argument provides.
-/

/-- One RGBA pixel of an `ImageData` buffer (four consecutive entries of the
JS `data` array). -/
structure Pixel where
  r : ℕ
  g : ℕ
  b : ℕ
  a : ℕ
deriving DecidableEq, Repr

instance : Inhabited Pixel := ⟨⟨0, 0, 0, 0⟩⟩

/-- An RGB triple, the JS three-element color array `[r, g, b]`. -/
abbrev RGB : Type := ℕ × ℕ × ℕ

/-- The color channels of a pixel, as the JS code reads
`[data[i], data[i+1], data[i+2]]`. -/
def Pixel.rgb (p : Pixel) : RGB := (p.r, p.g, p.b)

/-- A decoded image: JS `ImageData` with `width`, `height` and the flat
RGBA `data` array, grouped here into one `Pixel` per 4 entries, row-major. -/
@[ext]
structure ImageBuffer where
  width : ℕ
  height : ℕ
  data : List Pixel
deriving DecidableEq, Repr

/-- Squared Euclidean RGB distance.  The source's `colorDistance` is
`Math.sqrt` of this value; all uses compare distances, so the squared form
is order-equivalent (see file header). -/
def colorDistSq (c1 c2 : RGB) : ℤ :=
  ((c1.1 : ℤ) - c2.1) ^ 2 + ((c1.2.1 : ℤ) - c2.2.1) ^ 2 +
    ((c1.2.2 : ℤ) - c2.2.2) ^ 2

theorem colorDistSq_nonneg (c1 c2 : RGB) : 0 ≤ colorDistSq c1 c2 := by
  unfold colorDistSq; positivity

theorem colorDistSq_self (c : RGB) : colorDistSq c c = 0 := by
  unfold colorDistSq; ring

theorem colorDistSq_eq_zero_iff (c1 c2 : RGB) :
    colorDistSq c1 c2 = 0 ↔ c1 = c2 := by
  unfold colorDistSq
  constructor
  · intro h
    obtain ⟨r1, g1, b1⟩ := c1
    obtain ⟨r2, g2, b2⟩ := c2
    simp only [Prod.mk.injEq]
    have hr : ((r1 : ℤ) - r2) ^ 2 = 0 ∧ ((g1 : ℤ) - g2) ^ 2 = 0 ∧
        ((b1 : ℤ) - b2) ^ 2 = 0 := by
      refine ⟨?_, ?_, ?_⟩ <;>
        nlinarith [sq_nonneg ((r1 : ℤ) - r2), sq_nonneg ((g1 : ℤ) - g2),
          sq_nonneg ((b1 : ℤ) - b2)]
    refine ⟨?_, ?_, ?_⟩
    · have := sq_eq_zero_iff.mp hr.1
      omega
    · have := sq_eq_zero_iff.mp hr.2.1
      omega
    · have := sq_eq_zero_iff.mp hr.2.2
      omega
  · rintro rfl; ring

/-- One step of the source's `findNearestColor` loop: keep the running
`(nearest, minDist)` pair, replacing it when the candidate's distance is
strictly smaller (`dist < minDist`). -/
def nearestStep (pixel : RGB) (best : RGB × ℤ) (col : RGB) : RGB × ℤ :=
  if colorDistSq pixel col < best.2 then (col, colorDistSq pixel col) else best

/-- `Posterizer.findNearestColor(pixel, palette)`: the first palette color
at minimal distance from `pixel` (the JS loop starts with `minDist =
Infinity`, so for a nonempty palette the head always becomes the initial
best).  On the empty palette the JS code returns `undefined`, which makes
the caller throw; the embedding returns `pixel` in that unreachable case. -/
def findNearestColor (pixel : RGB) (palette : List RGB) : RGB :=
  match palette with
  | [] => pixel
  | c :: cs => (cs.foldl (nearestStep pixel) (c, colorDistSq pixel c)).1

/-- The fold of `findNearestColor` keeps the stored distance coherent with
the stored color. -/
theorem nearestFold_snd (pixel : RGB) (cs : List RGB) (c : RGB) :
    (cs.foldl (nearestStep pixel) (c, colorDistSq pixel c)).2 =
      colorDistSq pixel (cs.foldl (nearestStep pixel) (c, colorDistSq pixel c)).1 := by
  induction cs generalizing c with
  | nil => rfl
  | cons c2 cs ih =>
    simp only [List.foldl_cons, nearestStep]
    by_cases h : colorDistSq pixel c2 < colorDistSq pixel c
    · simpa [h] using ih c2
    · simpa [h] using ih c

/-- First-minimum characterization of `findNearestColor` on a nonempty
palette: the palette splits as `l1 ++ result :: l2` where every color in
`l1` is strictly farther and every color in `l2` is at least as far. -/
theorem findNearestColor_spec (pixel : RGB) (c : RGB) (cs : List RGB) :
    ∃ l1 l2, c :: cs = l1 ++ findNearestColor pixel (c :: cs) :: l2 ∧
      (∀ x ∈ l1, colorDistSq pixel (findNearestColor pixel (c :: cs)) <
        colorDistSq pixel x) ∧
      (∀ x ∈ l2, colorDistSq pixel (findNearestColor pixel (c :: cs)) ≤
        colorDistSq pixel x) := by
  induction cs generalizing c with
  | nil =>
    exact ⟨[], [], by simp [findNearestColor], by simp, by simp⟩
  | cons c2 cs ih =>
    by_cases h : colorDistSq pixel c2 < colorDistSq pixel c
    · have hfn : findNearestColor pixel (c :: c2 :: cs) =
          findNearestColor pixel (c2 :: cs) := by
        simp [findNearestColor, nearestStep, h]
      rw [hfn]
      obtain ⟨l1, l2, heq, hlt, hle⟩ := ih c2
      cases l1 with
      | nil =>
        simp only [List.nil_append] at heq
        have h1 : c2 = findNearestColor pixel (c2 :: cs) := by
          injection heq
        refine ⟨[c], l2, ?_, ?_, hle⟩
        · simpa using heq
        · intro x hx
          simp only [List.mem_singleton] at hx
          subst hx
          rw [← h1]; exact h
      | cons a t =>
        simp only [List.cons_append] at heq
        injection heq with h1 h2
        subst h1
        refine ⟨c :: c2 :: t, l2, ?_, ?_, hle⟩
        · simp only [List.cons_append]
          rw [← h2]
        · intro x hx
          rcases List.mem_cons.mp hx with rfl | hx2
          · exact lt_trans (hlt c2 (by simp)) h
          · exact hlt x hx2
    · have hfn : findNearestColor pixel (c :: c2 :: cs) =
          findNearestColor pixel (c :: cs) := by
        simp [findNearestColor, nearestStep, h]
      rw [hfn]
      obtain ⟨l1, l2, heq, hlt, hle⟩ := ih c
      cases l1 with
      | nil =>
        simp only [List.nil_append] at heq
        injection heq with h1 h2
        refine ⟨[], c2 :: l2, ?_, by simp, ?_⟩
        · simp only [List.nil_append]
          rw [← h1, ← h2]
        · intro x hx
          rcases List.mem_cons.mp hx with rfl | hx2
          · rw [← h1]; omega
          · exact hle x hx2
      | cons a t =>
        simp only [List.cons_append] at heq
        injection heq with h1 h2
        subst h1
        refine ⟨c :: c2 :: t, l2, ?_, ?_, hle⟩
        · simp only [List.cons_append]
          rw [← h2]
        · intro x hx
          rcases List.mem_cons.mp hx with rfl | hx2
          · exact hlt x (by simp)
          rcases List.mem_cons.mp hx2 with rfl | hx3
          · exact lt_of_lt_of_le (hlt c (by simp)) (by omega)
          · exact hlt x (by simp [hx3])

/-- `findNearestColor` returns a member of a nonempty palette. -/
theorem findNearestColor_mem (pixel : RGB) (palette : List RGB)
    (h : palette ≠ []) : findNearestColor pixel palette ∈ palette := by
  cases palette with
  | nil => exact absurd rfl h
  | cons c cs =>
    obtain ⟨l1, l2, heq, -, -⟩ := findNearestColor_spec pixel c cs
    have hm : findNearestColor pixel (c :: cs) ∈
        l1 ++ findNearestColor pixel (c :: cs) :: l2 := by simp
    rwa [← heq] at hm

/-- `findNearestColor` is minimal over a nonempty palette. -/
theorem findNearestColor_min (pixel : RGB) (palette : List RGB)
    (h : palette ≠ []) :
    ∀ x ∈ palette, colorDistSq pixel (findNearestColor pixel palette) ≤
      colorDistSq pixel x := by
  cases palette with
  | nil => exact absurd rfl h
  | cons c cs =>
    obtain ⟨l1, l2, heq, hlt, hle⟩ := findNearestColor_spec pixel c cs
    intro x hx
    rw [heq] at hx
    rcases List.mem_append.mp hx with h1 | h2
    · exact le_of_lt (hlt x h1)
    rcases List.mem_cons.mp h2 with h0 | h3
    · rw [h0]
    · exact hle x h3

/-- A palette member is its own nearest color. -/
theorem findNearestColor_of_mem (c : RGB) (palette : List RGB)
    (h : c ∈ palette) : findNearestColor c palette = c := by
  have hne : palette ≠ [] := List.ne_nil_of_mem h
  have hmin := findNearestColor_min c palette hne c h
  rw [colorDistSq_self] at hmin
  have hnn := colorDistSq_nonneg c (findNearestColor c palette)
  have : colorDistSq c (findNearestColor c palette) = 0 := le_antisymm hmin hnn
  exact ((colorDistSq_eq_zero_iff _ _).mp this).symm

/-- getD through `List.map` at an in-range index. -/
theorem getD_map_lt {α β : Type} (f : α → β) (l : List α) (i : ℕ)
    (da : α) (db : β) (h : i < l.length) :
    (l.map f).getD i db = f (l.getD i da) := by
  induction l generalizing i with
  | nil => simp at h
  | cons p ps ih =>
    cases i with
    | zero => rfl
    | succ j =>
      simp only [List.map_cons, List.getD_cons_succ]
      exact ih j (by simpa using h)

/-- getD past the end of a list is the default. -/
theorem getD_of_le {α : Type} (l : List α) (i : ℕ) (d : α)
    (h : l.length ≤ i) : l.getD i d = d := by
  induction l generalizing i with
  | nil => simp
  | cons p ps ih =>
    cases i with
    | zero => simp at h
    | succ j =>
      simp only [List.getD_cons_succ]
      exact ih j (by simpa using h)

/-- The per-pixel update of `Posterizer.posterizeReplace`: transparent
pixels (`alpha < 128`) are skipped, opaque pixels get the nearest palette
color written into their three color channels. -/
def replacePixel (palette : List RGB) (px : Pixel) : Pixel :=
  if px.a < 128 then px
  else
    let nearest := findNearestColor px.rgb palette
    { px with r := nearest.1, g := nearest.2.1, b := nearest.2.2 }

/-- `Posterizer.posterizeReplace(imageData, palette)`: copy the buffer and
rewrite every opaque pixel's color channels with the nearest palette
color.  `posterizeClosest` in the source is defined as exactly this
function. -/
def posterizeReplace (imageData : ImageBuffer) (palette : List RGB) :
    ImageBuffer :=
  { imageData with data := imageData.data.map (replacePixel palette) }

theorem replacePixel_a (palette : List RGB) (px : Pixel) :
    (replacePixel palette px).a = px.a := by
  unfold replacePixel
  by_cases h : px.a < 128 <;> simp [h]

/-- C1: for every input buffer and non-empty palette, `posterizeReplace`
(the core of `mapToPalette`) keeps the dimensions, passes every pixel with
alpha < 128 through unchanged (color included), and replaces the color of
every pixel with alpha ≥ 128 by the first palette color of minimal
Euclidean RGB distance (the palette splits as `l1 ++ out :: l2` with all
of `l1` strictly farther and all of `l2` no closer); in particular every
opaque output pixel's color is an element of the palette, and alpha is
unchanged. -/
theorem C1_mapToPalette_nearest (buf : ImageBuffer) (palette : List RGB)
    (hpal : palette ≠ []) :
    (posterizeReplace buf palette).width = buf.width ∧
    (posterizeReplace buf palette).height = buf.height ∧
    (posterizeReplace buf palette).data.length = buf.data.length ∧
    ∀ i, i < buf.data.length →
      (if 128 ≤ (buf.data.getD i default).a then
        ((posterizeReplace buf palette).data.getD i default).a =
          (buf.data.getD i default).a ∧
        ∃ l1 l2,
          palette = l1 ++
            ((posterizeReplace buf palette).data.getD i default).rgb :: l2 ∧
          (∀ x ∈ l1,
            colorDistSq (buf.data.getD i default).rgb
              ((posterizeReplace buf palette).data.getD i default).rgb <
            colorDistSq (buf.data.getD i default).rgb x) ∧
          (∀ x ∈ l2,
            colorDistSq (buf.data.getD i default).rgb
              ((posterizeReplace buf palette).data.getD i default).rgb ≤
            colorDistSq (buf.data.getD i default).rgb x)
      else (posterizeReplace buf palette).data.getD i default =
        buf.data.getD i default) := by
  refine ⟨rfl, rfl, by simp [posterizeReplace], ?_⟩
  intro i hi
  have hout : (posterizeReplace buf palette).data.getD i default =
      replacePixel palette (buf.data.getD i default) := by
    simp only [posterizeReplace]
    exact getD_map_lt _ _ i default default hi
  set pin := buf.data.getD i default with hpin
  by_cases ha : 128 ≤ pin.a
  · simp only [ha, if_pos]
    constructor
    · rw [hout]; exact replacePixel_a palette pin
    · have hrgb : ((posterizeReplace buf palette).data.getD i default).rgb =
          findNearestColor pin.rgb palette := by
        rw [hout]
        unfold replacePixel
        have : ¬ pin.a < 128 := by omega
        simp only [this, if_neg, not_false_iff]
        rfl
      rw [hrgb]
      cases palette with
      | nil => exact absurd rfl hpal
      | cons c cs => exact findNearestColor_spec pin.rgb c cs
  · simp only [ha, if_neg, not_false_iff]
    rw [hout]
    unfold replacePixel
    have : pin.a < 128 := by omega
    simp [this]

/-- Witness for C1 at a concrete buffer and palette. -/
theorem C1_mapToPalette_nearest_witness :
    ([((255 : ℕ), (0 : ℕ), (0 : ℕ)), ((0 : ℕ), (0 : ℕ), (255 : ℕ))] ≠
      ([] : List RGB)) ∧
    ((posterizeReplace ⟨1, 2, [⟨10, 20, 200, 255⟩, ⟨30, 40, 50, 10⟩]⟩
        [(255, 0, 0), (0, 0, 255)]).width = 1 ∧
     (posterizeReplace ⟨1, 2, [⟨10, 20, 200, 255⟩, ⟨30, 40, 50, 10⟩]⟩
        [(255, 0, 0), (0, 0, 255)]).height = 2 ∧
     (posterizeReplace ⟨1, 2, [⟨10, 20, 200, 255⟩, ⟨30, 40, 50, 10⟩]⟩
        [(255, 0, 0), (0, 0, 255)]).data.length =
       (⟨1, 2, [⟨10, 20, 200, 255⟩, ⟨30, 40, 50, 10⟩]⟩ : ImageBuffer).data.length ∧
     ∀ i, i < (⟨1, 2, [⟨10, 20, 200, 255⟩, ⟨30, 40, 50, 10⟩]⟩ : ImageBuffer).data.length →
      (if 128 ≤ (((⟨1, 2, [⟨10, 20, 200, 255⟩, ⟨30, 40, 50, 10⟩]⟩ : ImageBuffer)).data.getD i default).a then
        ((posterizeReplace ⟨1, 2, [⟨10, 20, 200, 255⟩, ⟨30, 40, 50, 10⟩]⟩
            [(255, 0, 0), (0, 0, 255)]).data.getD i default).a =
          (((⟨1, 2, [⟨10, 20, 200, 255⟩, ⟨30, 40, 50, 10⟩]⟩ : ImageBuffer)).data.getD i default).a ∧
        ∃ l1 l2,
          [((255 : ℕ), (0 : ℕ), (0 : ℕ)), ((0 : ℕ), (0 : ℕ), (255 : ℕ))] = l1 ++
            ((posterizeReplace ⟨1, 2, [⟨10, 20, 200, 255⟩, ⟨30, 40, 50, 10⟩]⟩
                [(255, 0, 0), (0, 0, 255)]).data.getD i default).rgb :: l2 ∧
          (∀ x ∈ l1,
            colorDistSq (((⟨1, 2, [⟨10, 20, 200, 255⟩, ⟨30, 40, 50, 10⟩]⟩ : ImageBuffer)).data.getD i default).rgb
              ((posterizeReplace ⟨1, 2, [⟨10, 20, 200, 255⟩, ⟨30, 40, 50, 10⟩]⟩
                  [(255, 0, 0), (0, 0, 255)]).data.getD i default).rgb <
            colorDistSq (((⟨1, 2, [⟨10, 20, 200, 255⟩, ⟨30, 40, 50, 10⟩]⟩ : ImageBuffer)).data.getD i default).rgb x) ∧
          (∀ x ∈ l2,
            colorDistSq (((⟨1, 2, [⟨10, 20, 200, 255⟩, ⟨30, 40, 50, 10⟩]⟩ : ImageBuffer)).data.getD i default).rgb
              ((posterizeReplace ⟨1, 2, [⟨10, 20, 200, 255⟩, ⟨30, 40, 50, 10⟩]⟩
                  [(255, 0, 0), (0, 0, 255)]).data.getD i default).rgb ≤
            colorDistSq (((⟨1, 2, [⟨10, 20, 200, 255⟩, ⟨30, 40, 50, 10⟩]⟩ : ImageBuffer)).data.getD i default).rgb x)
      else (posterizeReplace ⟨1, 2, [⟨10, 20, 200, 255⟩, ⟨30, 40, 50, 10⟩]⟩
          [(255, 0, 0), (0, 0, 255)]).data.getD i default =
        ((⟨1, 2, [⟨10, 20, 200, 255⟩, ⟨30, 40, 50, 10⟩]⟩ : ImageBuffer)).data.getD i default)) :=
  ⟨by decide,
   C1_mapToPalette_nearest ⟨1, 2, [⟨10, 20, 200, 255⟩, ⟨30, 40, 50, 10⟩]⟩
     [(255, 0, 0), (0, 0, 255)] (by decide)⟩

/-- C3: mapping to a palette is idempotent. -/
theorem C3_mapToPalette_idempotent (buf : ImageBuffer) (palette : List RGB)
    (hpal : palette ≠ []) :
    posterizeReplace (posterizeReplace buf palette) palette =
      posterizeReplace buf palette := by
  have hpx : ∀ px : Pixel, replacePixel palette (replacePixel palette px) =
      replacePixel palette px := by
    intro px
    by_cases h : px.a < 128
    · simp [replacePixel, h]
    · have hmem : findNearestColor px.rgb palette ∈ palette :=
        findNearestColor_mem px.rgb palette hpal
      have hfix : findNearestColor (findNearestColor px.rgb palette) palette =
          findNearestColor px.rgb palette :=
        findNearestColor_of_mem _ palette hmem
      simp only [Pixel.rgb] at hfix
      simp [replacePixel, h, Pixel.rgb, Prod.mk.eta, hfix]
  apply ImageBuffer.ext
  · rfl
  · rfl
  · simp only [posterizeReplace, List.map_map]
    apply List.map_congr_left
    intro px _
    exact hpx px

/-- Witness for C3 at a concrete buffer and palette. -/
theorem C3_mapToPalette_idempotent_witness :
    ([((0 : ℕ), (0 : ℕ), (0 : ℕ)), ((255 : ℕ), (255 : ℕ), (255 : ℕ))] ≠
      ([] : List RGB)) ∧
    posterizeReplace
        (posterizeReplace ⟨2, 1, [⟨7, 8, 9, 255⟩, ⟨200, 220, 240, 99⟩]⟩
          [(0, 0, 0), (255, 255, 255)])
        [(0, 0, 0), (255, 255, 255)] =
      posterizeReplace ⟨2, 1, [⟨7, 8, 9, 255⟩, ⟨200, 220, 240, 99⟩]⟩
        [(0, 0, 0), (255, 255, 255)] :=
  ⟨by decide,
   C3_mapToPalette_idempotent ⟨2, 1, [⟨7, 8, 9, 255⟩, ⟨200, 220, 240, 99⟩]⟩
     [(0, 0, 0), (255, 255, 255)] (by decide)⟩

/-- The source's `colorDistance(c1, c2) <= tolerance` test, in squared
form: `sqrt d ≤ t` iff `0 ≤ t ∧ d ≤ t · t`. -/
def withinTol (c1 c2 : RGB) (tol : ℚ) : Bool :=
  decide (0 ≤ tol) && decide ((colorDistSq c1 c2 : ℚ) ≤ tol * tol)

/-- Bounds test of `floodFill` (`cx < 0 || cx >= width || cy < 0 ||
cy >= height` rejected). -/
def inBoundsZ (w h : ℕ) (c : ℤ × ℤ) : Bool :=
  decide (0 ≤ c.1) && decide (c.1 < (w : ℤ)) &&
    decide (0 ≤ c.2) && decide (c.2 < (h : ℤ))

/-- The worklist loop of `Posterizer.floodFill`, with explicit fuel (one
unit per `while` iteration; the source loop terminates because each
in-bounds coordinate is visited at most once and each visit enqueues at
most 4 neighbors, so the wrapper's fuel of `5 * (W * H + 1)` dominates the
real iteration count).  The queue is FIFO (`shift` from the front, `push`
at the back); out-of-bounds coordinates are dropped without being marked
visited, exactly as in the source. -/
def floodFillAux (buf : ImageBuffer) (startColor : RGB) (tol : ℚ) :
    ℕ → List (ℤ × ℤ) → List (ℤ × ℤ) → List (ℕ × ℕ) → List (ℕ × ℕ)
  | 0, _, _, region => region
  | fuel + 1, visited, queue, region =>
    match queue with
    | [] => region
    | c :: rest =>
      if c ∈ visited then floodFillAux buf startColor tol fuel visited rest region
      else if inBoundsZ buf.width buf.height c = false then
        floodFillAux buf startColor tol fuel visited rest region
      else
        let cx := c.1.toNat
        let cy := c.2.toNat
        let px := buf.data.getD (cy * buf.width + cx) default
        if withinTol px.rgb startColor tol then
          floodFillAux buf startColor tol fuel (c :: visited)
            (rest ++ [(c.1 + 1, c.2), (c.1 - 1, c.2), (c.1, c.2 + 1), (c.1, c.2 - 1)])
            (region ++ [(cx, cy)])
        else floodFillAux buf startColor tol fuel (c :: visited) rest region

/-- `Posterizer.floodFill(imageData, x, y, tolerance)`: BFS over 4-connected
neighbors within `tolerance` of the start pixel's color, collecting the
visited in-bounds similar coordinates. -/
def floodFill (buf : ImageBuffer) (x y : ℕ) (tol : ℚ) : List (ℕ × ℕ) :=
  let startColor := (buf.data.getD (y * buf.width + x) default).rgb
  floodFillAux buf startColor tol (5 * (buf.width * buf.height + 1))
    [] [((x : ℤ), (y : ℤ))] []

/-- Set the alpha channel of the pixel at one index to 0 (the source's
`newData.data[idx + 3] = 0`); out-of-range indices change nothing. -/
def setAlphaZero : List Pixel → ℕ → List Pixel
  | [], _ => []
  | p :: ps, 0 => { p with a := 0 } :: ps
  | p :: ps, n + 1 => p :: setAlphaZero ps n

/-- `Posterizer.makeRegionTransparent(imageData, x, y, tolerance)`: copy the
buffer, then zero the alpha of every flood-filled region pixel. -/
def makeRegionTransparent (buf : ImageBuffer) (x y : ℕ) (tol : ℚ) :
    ImageBuffer :=
  let region := floodFill buf x y tol
  { buf with data := region.foldl (fun d c => setAlphaZero d (c.2 * buf.width + c.1)) buf.data }

/-- The per-pixel update of `Posterizer.makeColorTransparent(imageData,
targetColor, tolerance)`: zero the alpha of a pixel within `tolerance` of
`targetColor`. -/
def eraseColorPixel (targetColor : RGB) (tol : ℚ) (px : Pixel) : Pixel :=
  if withinTol px.rgb targetColor tol then { px with a := 0 } else px

def makeColorTransparent (buf : ImageBuffer) (targetColor : RGB) (tol : ℚ) :
    ImageBuffer :=
  { buf with data := buf.data.map (eraseColorPixel targetColor tol) }

theorem eraseColorPixel_fields (targetColor : RGB) (tol : ℚ) (px : Pixel) :
    (eraseColorPixel targetColor tol px).r = px.r ∧
    (eraseColorPixel targetColor tol px).g = px.g ∧
    (eraseColorPixel targetColor tol px).b = px.b ∧
    ((eraseColorPixel targetColor tol px).a = px.a ∨
      (eraseColorPixel targetColor tol px).a = 0) := by
  unfold eraseColorPixel
  by_cases h : withinTol px.rgb targetColor tol <;> simp [h]

theorem setAlphaZero_length (l : List Pixel) (n : ℕ) :
    (setAlphaZero l n).length = l.length := by
  induction l generalizing n with
  | nil => rfl
  | cons p ps ih =>
    cases n with
    | zero => rfl
    | succ m => simpa [setAlphaZero] using ih m

/-- `setAlphaZero` keeps every pixel's color channels, and each alpha is
the original or 0. -/
theorem setAlphaZero_getD (l : List Pixel) (n i : ℕ) :
    ((setAlphaZero l n).getD i default).r = (l.getD i default).r ∧
    ((setAlphaZero l n).getD i default).g = (l.getD i default).g ∧
    ((setAlphaZero l n).getD i default).b = (l.getD i default).b ∧
    (((setAlphaZero l n).getD i default).a = (l.getD i default).a ∨
      ((setAlphaZero l n).getD i default).a = 0) := by
  induction l generalizing n i with
  | nil => simp [setAlphaZero]
  | cons p ps ih =>
    cases n with
    | zero =>
      cases i with
      | zero => simp [setAlphaZero]
      | succ j => simp [setAlphaZero]
    | succ m =>
      cases i with
      | zero => simp [setAlphaZero]
      | succ j => simpa [setAlphaZero] using ih m j

/-- Folding `setAlphaZero` over any coordinate list keeps lengths and color
channels and only ever lowers alpha to 0. -/
theorem setAlphaZero_fold (f : ℕ × ℕ → ℕ) (coords : List (ℕ × ℕ))
    (d0 : List Pixel) :
    (coords.foldl (fun d c => setAlphaZero d (f c)) d0).length = d0.length ∧
    ∀ i,
      ((coords.foldl (fun d c => setAlphaZero d (f c)) d0).getD i default).r =
        (d0.getD i default).r ∧
      ((coords.foldl (fun d c => setAlphaZero d (f c)) d0).getD i default).g =
        (d0.getD i default).g ∧
      ((coords.foldl (fun d c => setAlphaZero d (f c)) d0).getD i default).b =
        (d0.getD i default).b ∧
      (((coords.foldl (fun d c => setAlphaZero d (f c)) d0).getD i default).a =
        (d0.getD i default).a ∨
       ((coords.foldl (fun d c => setAlphaZero d (f c)) d0).getD i default).a = 0) := by
  induction coords generalizing d0 with
  | nil => exact ⟨rfl, fun i => ⟨rfl, rfl, rfl, Or.inl rfl⟩⟩
  | cons c cs ih =>
    simp only [List.foldl_cons]
    obtain ⟨ihlen, ihpt⟩ := ih (setAlphaZero d0 (f c))
    refine ⟨by rw [ihlen, setAlphaZero_length], ?_⟩
    intro i
    obtain ⟨hr1, hg1, hb1, ha1⟩ := ihpt i
    obtain ⟨hr0, hg0, hb0, ha0⟩ := setAlphaZero_getD d0 (f c) i
    refine ⟨hr1.trans hr0, hg1.trans hg0, hb1.trans hb0, ?_⟩
    rcases ha1 with h1 | h1
    · rcases ha0 with h0 | h0
      · exact Or.inl (h1.trans h0)
      · exact Or.inr (h1.trans h0)
    · exact Or.inr h1

/-- C10: `makeRegionTransparent` and `makeColorTransparent` return a buffer
of identical dimensions in which every pixel's RGB channels equal the input
pixel's RGB channels — only alpha is ever modified.  (The source allocates
a fresh `Uint8ClampedArray`, so the input buffer itself is untouched; in
this embedding all values are immutable.) -/
theorem C10_transparency_preserves_rgb (buf : ImageBuffer) (x y : ℕ)
    (tolR : ℚ) (target : RGB) (tolC : ℚ) :
    ((makeRegionTransparent buf x y tolR).width = buf.width ∧
     (makeRegionTransparent buf x y tolR).height = buf.height ∧
     (makeRegionTransparent buf x y tolR).data.length = buf.data.length ∧
     ∀ i,
       ((makeRegionTransparent buf x y tolR).data.getD i default).r =
         (buf.data.getD i default).r ∧
       ((makeRegionTransparent buf x y tolR).data.getD i default).g =
         (buf.data.getD i default).g ∧
       ((makeRegionTransparent buf x y tolR).data.getD i default).b =
         (buf.data.getD i default).b) ∧
    ((makeColorTransparent buf target tolC).width = buf.width ∧
     (makeColorTransparent buf target tolC).height = buf.height ∧
     (makeColorTransparent buf target tolC).data.length = buf.data.length ∧
     ∀ i,
       ((makeColorTransparent buf target tolC).data.getD i default).r =
         (buf.data.getD i default).r ∧
       ((makeColorTransparent buf target tolC).data.getD i default).g =
         (buf.data.getD i default).g ∧
       ((makeColorTransparent buf target tolC).data.getD i default).b =
         (buf.data.getD i default).b) := by
  constructor
  · obtain ⟨hlen, hpt⟩ := setAlphaZero_fold
      (fun c => c.2 * buf.width + c.1) (floodFill buf x y tolR) buf.data
    exact ⟨rfl, rfl, hlen, fun i => ⟨(hpt i).1, (hpt i).2.1, (hpt i).2.2.1⟩⟩
  · refine ⟨rfl, rfl, by simp [makeColorTransparent], ?_⟩
    intro i
    by_cases hi : i < buf.data.length
    · have hmap : (makeColorTransparent buf target tolC).data.getD i default =
          eraseColorPixel target tolC (buf.data.getD i default) := by
        simp only [makeColorTransparent]
        exact getD_map_lt _ _ i default default hi
      rw [hmap]
      obtain ⟨h1, h2, h3, -⟩ := eraseColorPixel_fields target tolC
        (buf.data.getD i default)
      exact ⟨h1, h2, h3⟩
    · have h1 : (makeColorTransparent buf target tolC).data.getD i default =
          default := by
        apply getD_of_le
        simpa [makeColorTransparent] using Nat.le_of_not_lt hi
      have h2 : buf.data.getD i default = default :=
        getD_of_le _ _ _ (Nat.le_of_not_lt hi)
      rw [h1, h2]
      exact ⟨rfl, rfl, rfl⟩

/-- C5: every PixelMapper operation (`posterizeReplace` alias
`mapToPalette`, `makeRegionTransparent` alias `eraseRegion`,
`makeColorTransparent` alias `eraseColor`) gives each output pixel an alpha
equal to the corresponding input alpha or 0; alpha is never raised. -/
theorem C5_alpha_never_raised (buf : ImageBuffer) (palette : List RGB)
    (hpal : palette ≠ []) (x y : ℕ) (tolR : ℚ) (target : RGB) (tolC : ℚ)
    (i : ℕ) :
    (((posterizeReplace buf palette).data.getD i default).a =
        (buf.data.getD i default).a ∨
      ((posterizeReplace buf palette).data.getD i default).a = 0) ∧
    (((makeRegionTransparent buf x y tolR).data.getD i default).a =
        (buf.data.getD i default).a ∨
      ((makeRegionTransparent buf x y tolR).data.getD i default).a = 0) ∧
    (((makeColorTransparent buf target tolC).data.getD i default).a =
        (buf.data.getD i default).a ∨
      ((makeColorTransparent buf target tolC).data.getD i default).a = 0) := by
  refine ⟨?_, ?_, ?_⟩
  · by_cases hi : i < buf.data.length
    · left
      have hmap : (posterizeReplace buf palette).data.getD i default =
          replacePixel palette (buf.data.getD i default) := by
        simp only [posterizeReplace]
        exact getD_map_lt _ _ i default default hi
      rw [hmap, replacePixel_a]
    · left
      have h1 : (posterizeReplace buf palette).data.getD i default = default := by
        apply getD_of_le
        simpa [posterizeReplace] using Nat.le_of_not_lt hi
      have h2 : buf.data.getD i default = default :=
        getD_of_le _ _ _ (Nat.le_of_not_lt hi)
      rw [h1, h2]
  · exact ((setAlphaZero_fold (fun c => c.2 * buf.width + c.1)
      (floodFill buf x y tolR) buf.data).2 i).2.2.2
  · by_cases hi : i < buf.data.length
    · have hmap : (makeColorTransparent buf target tolC).data.getD i default =
          eraseColorPixel target tolC (buf.data.getD i default) := by
        simp only [makeColorTransparent]
        exact getD_map_lt _ _ i default default hi
      rw [hmap]
      exact (eraseColorPixel_fields target tolC (buf.data.getD i default)).2.2.2
    · left
      have h1 : (makeColorTransparent buf target tolC).data.getD i default =
          default := by
        apply getD_of_le
        simpa [makeColorTransparent] using Nat.le_of_not_lt hi
      have h2 : buf.data.getD i default = default :=
        getD_of_le _ _ _ (Nat.le_of_not_lt hi)
      rw [h1, h2]

/-- Witness for C5 at a concrete buffer, palette and arguments. -/
theorem C5_alpha_never_raised_witness :
    (([((0 : ℕ), (0 : ℕ), (0 : ℕ))] : List RGB) ≠ []) ∧
    ((((posterizeReplace ⟨1, 1, [⟨9, 9, 9, 200⟩]⟩ [(0, 0, 0)]).data.getD 0 default).a =
        ((⟨1, 1, [⟨9, 9, 9, 200⟩]⟩ : ImageBuffer).data.getD 0 default).a ∨
      ((posterizeReplace ⟨1, 1, [⟨9, 9, 9, 200⟩]⟩ [(0, 0, 0)]).data.getD 0 default).a = 0) ∧
     (((makeRegionTransparent ⟨1, 1, [⟨9, 9, 9, 200⟩]⟩ 0 0 30).data.getD 0 default).a =
        ((⟨1, 1, [⟨9, 9, 9, 200⟩]⟩ : ImageBuffer).data.getD 0 default).a ∨
      ((makeRegionTransparent ⟨1, 1, [⟨9, 9, 9, 200⟩]⟩ 0 0 30).data.getD 0 default).a = 0) ∧
     (((makeColorTransparent ⟨1, 1, [⟨9, 9, 9, 200⟩]⟩ (9, 9, 9) 10).data.getD 0 default).a =
        ((⟨1, 1, [⟨9, 9, 9, 200⟩]⟩ : ImageBuffer).data.getD 0 default).a ∨
      ((makeColorTransparent ⟨1, 1, [⟨9, 9, 9, 200⟩]⟩ (9, 9, 9) 10).data.getD 0 default).a = 0)) :=
  ⟨by decide,
   C5_alpha_never_raised ⟨1, 1, [⟨9, 9, 9, 200⟩]⟩ [(0, 0, 0)] (by decide)
     0 0 30 (9, 9, 9) 10 0⟩

/-- JS `x % 2` for the float expression `(h / 60) % 2`.  JS `%` truncates
toward zero; for the nonnegative dividends produced by the source's hue
arguments this equals the floor form used here. -/
def jsMod2 (x : ℚ) : ℚ := x - 2 * (⌊x / 2⌋ : ℚ)

/-- JS `Math.round` (round half toward positive infinity). -/
def jsRound (q : ℚ) : ℤ := ⌊q + 1 / 2⌋

theorem jsMod2_bounds (x : ℚ) : 0 ≤ jsMod2 x ∧ jsMod2 x < 2 := by
  unfold jsMod2
  have h1 := Int.fract_nonneg (x / 2)
  have h2 := Int.fract_lt_one (x / 2)
  unfold Int.fract at h1 h2
  constructor <;> nlinarith

/-- `c = (1 - Math.abs(2 * l - 1)) * s` of `Posterizer.hslToRgb` (after the
`/= 100` normalizations). -/
def hslC (s l : ℚ) : ℚ := (1 - |2 * (l / 100) - 1|) * (s / 100)

/-- `x = c * (1 - Math.abs((h / 60) % 2 - 1))` of `Posterizer.hslToRgb`. -/
def hslX (h s l : ℚ) : ℚ := hslC s l * (1 - |jsMod2 (h / 60) - 1|)

/-- `m = l - c / 2` of `Posterizer.hslToRgb`. -/
def hslM (s l : ℚ) : ℚ := l / 100 - hslC s l / 2

/-- The `[r, g, b]` selection ladder of `Posterizer.hslToRgb` (branches on
`h < 60`, `h < 120`, ..., else). -/
def hslTriple (h s l : ℚ) : ℚ × ℚ × ℚ :=
  if h < 60 then (hslC s l, hslX h s l, 0)
  else if h < 120 then (hslX h s l, hslC s l, 0)
  else if h < 180 then (0, hslC s l, hslX h s l)
  else if h < 240 then (0, hslX h s l, hslC s l)
  else if h < 300 then (hslX h s l, 0, hslC s l)
  else (hslC s l, 0, hslX h s l)

/-- `Posterizer.hslToRgb(h, s, l)`: piecewise HSL to RGB with
`Math.round((v + m) * 255)` per channel.  The rounded values are
nonnegative at every call site (saturation 70, lightness 50, proved
below), so `Int.toNat` is exact. -/
def hslToRgb (h s l : ℚ) : RGB :=
  ((jsRound (((hslTriple h s l).1 + hslM s l) * 255)).toNat,
   (jsRound (((hslTriple h s l).2.1 + hslM s l) * 255)).toNat,
   (jsRound (((hslTriple h s l).2.2 + hslM s l) * 255)).toNat)

/-- `Posterizer.generateDefaultPalette(k)`: k hues evenly spaced on the hue
wheel (`(i / k) * 360`) at saturation 70 and lightness 50. -/
def generateDefaultPalette (k : ℕ) : List RGB :=
  (List.range k).map fun (i : ℕ) => hslToRgb (((i : ℚ) / (k : ℚ)) * 360) 70 50

theorem hslC_70_50 : hslC 70 50 = 7 / 10 := by
  unfold hslC
  norm_num

theorem hslX_70_50_bounds (h : ℚ) :
    0 ≤ hslX h 70 50 ∧ hslX h 70 50 ≤ 7 / 10 := by
  unfold hslX
  rw [hslC_70_50]
  obtain ⟨hm0, hm2⟩ := jsMod2_bounds (h / 60)
  have habs : |jsMod2 (h / 60) - 1| ≤ 1 := by
    rw [abs_le]
    constructor <;> linarith
  have habs0 : 0 ≤ |jsMod2 (h / 60) - 1| := abs_nonneg _
  constructor <;> nlinarith

theorem hslTriple_70_50_bounds (h : ℚ) :
    (0 ≤ (hslTriple h 70 50).1 ∧ (hslTriple h 70 50).1 ≤ 7 / 10) ∧
    (0 ≤ (hslTriple h 70 50).2.1 ∧ (hslTriple h 70 50).2.1 ≤ 7 / 10) ∧
    (0 ≤ (hslTriple h 70 50).2.2 ∧ (hslTriple h 70 50).2.2 ≤ 7 / 10) := by
  obtain ⟨hx0, hx7⟩ := hslX_70_50_bounds h
  have hc := hslC_70_50
  unfold hslTriple
  split_ifs <;>
    refine ⟨⟨?_, ?_⟩, ⟨?_, ?_⟩, ⟨?_, ?_⟩⟩ <;>
    simp only [hc] <;> norm_num <;> linarith

/-- A channel value `v ∈ [0, 7/10]` rounds to an integer in `[0, 255]`
after the `(v + m) * 255` scaling with `m = 3/20`. -/
theorem hsl_channel_le (v : ℚ) (h0 : 0 ≤ v) (h1 : v ≤ 7 / 10) :
    (jsRound ((v + 3 / 20) * 255)).toNat ≤ 255 := by
  have hub : ((v + 3 / 20) * 255 + 1 / 2 : ℚ) < 218 := by nlinarith
  have hfl : (⌊((v + 3 / 20) * 255 + 1 / 2 : ℚ)⌋ : ℚ) ≤
      ((v + 3 / 20) * 255 + 1 / 2 : ℚ) := Int.floor_le _
  have : (⌊((v + 3 / 20) * 255 + 1 / 2 : ℚ)⌋ : ℚ) < 218 := lt_of_le_of_lt hfl hub
  have hint : ⌊((v + 3 / 20) * 255 + 1 / 2 : ℚ)⌋ < 218 := by exact_mod_cast this
  unfold jsRound
  omega

theorem hslM_70_50 : hslM 70 50 = 3 / 20 := by
  unfold hslM
  rw [hslC_70_50]
  norm_num

theorem hslToRgb_70_50_le (h : ℚ) :
    (hslToRgb h 70 50).1 ≤ 255 ∧ (hslToRgb h 70 50).2.1 ≤ 255 ∧
    (hslToRgb h 70 50).2.2 ≤ 255 := by
  obtain ⟨⟨h10, h17⟩, ⟨h20, h27⟩, ⟨h30, h37⟩⟩ := hslTriple_70_50_bounds h
  unfold hslToRgb
  rw [hslM_70_50]
  exact ⟨hsl_channel_le _ h10 h17, hsl_channel_le _ h20 h27,
    hsl_channel_le _ h30 h37⟩

theorem generateDefaultPalette_length (k : ℕ) :
    (generateDefaultPalette k).length = k := by
  unfold generateDefaultPalette
  rw [List.length_map, List.length_range]

theorem generateDefaultPalette_le (k : ℕ) :
    ∀ c ∈ generateDefaultPalette k,
      c.1 ≤ 255 ∧ c.2.1 ≤ 255 ∧ c.2.2 ≤ 255 := by
  intro c hc
  simp only [generateDefaultPalette, List.mem_map] at hc
  obtain ⟨i, -, rfl⟩ := hc
  exact hslToRgb_70_50_le _

/-- The default palette's hues are `i * 360 / k` (the source writes
`(i / k) * 360`; equal in ℚ). -/
theorem generateDefaultPalette_formula (k : ℕ) :
    generateDefaultPalette k =
      (List.range k).map fun (i : ℕ) => hslToRgb (360 * (i : ℚ) / (k : ℚ)) 70 50 := by
  unfold generateDefaultPalette
  apply List.map_congr_left
  intro i _
  congr 1
  ring

/-- Rational RGB triple: the centroid values during k-means iteration
(channel means, JS floats). -/
abbrev RGBQ : Type := ℚ × ℚ × ℚ

/-- Cast an integer color to rational channels. -/
def toQ (c : RGB) : RGBQ := ((c.1 : ℚ), (c.2.1 : ℚ), (c.2.2 : ℚ))

/-- Squared Euclidean distance on rational colors (same order-equivalence
to the source's `colorDistance` as `colorDistSq`). -/
def colorDistSqQ (c1 c2 : RGBQ) : ℚ :=
  (c1.1 - c2.1) ^ 2 + (c1.2.1 - c2.2.1) ^ 2 + (c1.2.2 - c2.2.2) ^ 2

/-- The sampling stride of `Posterizer.extractColors`:
`Math.max(1, Math.floor(data.length / (4 * 10000)))`, with
`data.length = 4 * (pixel count)`. -/
def sampleStep (buf : ImageBuffer) : ℕ := max 1 ((4 * buf.data.length) / 40000)

/-- The sampling loop of `Posterizer.extractColors`: visit pixel indices
`0, step, 2 step, ...` (the JS loop strides the flat array by `4 * step`),
skip pixels with alpha < 128, collect `[r, g, b]`. -/
def sampledPixels (buf : ImageBuffer) : List RGB :=
  buf.data.enum.filterMap fun ic =>
    if ic.1 % sampleStep buf = 0 ∧ 128 ≤ ic.2.a then some ic.2.rgb else none

/-- `Math.min(...centroids.map(c => colorDistance(pixel, c)))`, squared
(the source then squares the minimum, which equals the minimum of the
squares).  Empty centroid lists do not occur (the first centroid is chosen
before any roulette draw). -/
def minDistSqToCentroids (p : RGB) (cents : List RGB) : ℤ :=
  match cents with
  | [] => 0
  | c :: cs => cs.foldl (fun m c2 => min m (colorDistSq p c2)) (colorDistSq p c)

/-- The roulette scan of `initializeCentroidsKMeansPlusPlus`: walk the
pixels subtracting each weight from `random`; pick the first pixel where
the running value drops to ≤ 0.  Returns `none` when no pixel triggers
(in the source nothing is pushed in that case). -/
def rouletteAux : ℚ → List (RGB × ℤ) → Option RGB
  | _, [] => none
  | r, (p, d) :: rest =>
    if r - (d : ℚ) ≤ 0 then some p else rouletteAux (r - (d : ℚ)) rest

/-- The `for (let i = 1; i < k; i++)` loop of
`initializeCentroidsKMeansPlusPlus`: recompute the squared min-distances,
draw `random = rand i * totalDist`, roulette-pick the next centroid. -/
def kppIter (pixels : List RGB) (rand : ℕ → ℚ) :
    ℕ → ℕ → List RGB → List RGB
  | 0, _, cents => cents
  | n + 1, i, cents =>
    let distances := pixels.map fun p => minDistSqToCentroids p cents
    let r := rand i * ((distances.sum : ℤ) : ℚ)
    match rouletteAux r (pixels.zip distances) with
    | some p => kppIter pixels rand n (i + 1) (cents ++ [p])
    | none => kppIter pixels rand n (i + 1) cents

/-- `Posterizer.initializeCentroidsKMeansPlusPlus(pixels, k)`.  The random
source is explicit: `rand 0` drives the uniform first pick
(`Math.floor(Math.random() * pixels.length)`), `rand i` the i-th roulette
draw. -/
def initializeCentroidsKMeansPlusPlus (pixels : List RGB) (k : ℕ)
    (rand : ℕ → ℚ) : List RGB :=
  kppIter pixels rand (k - 1) 1
    [pixels.getD (⌊rand 0 * (pixels.length : ℚ)⌋).toNat default]

/-- Inner loop of `Posterizer.findNearestCentroid`: current index, best
index and best (squared) distance; update on strictly smaller distance. -/
def nciAux (pq : RGBQ) : List RGBQ → ℕ → ℕ → ℚ → ℕ
  | [], _, bi, _ => bi
  | c :: cs, i, bi, bd =>
    if colorDistSqQ pq c < bd then nciAux pq cs (i + 1) i (colorDistSqQ pq c)
    else nciAux pq cs (i + 1) bi bd

/-- `Posterizer.findNearestCentroid(pixel, centroids)` (starts with
`minDist = Infinity`, `nearestIndex = 0`; the head always becomes the
first best). -/
def findNearestCentroid (p : RGB) (cents : List RGBQ) : ℕ :=
  match cents with
  | [] => 0
  | c :: cs => nciAux (toQ p) cs 1 0 (colorDistSqQ (toQ p) c)

/-- `Posterizer.calculateMean(cluster)`: channel-wise sum divided by the
cluster size. -/
def calculateMean (cluster : List RGB) : RGBQ :=
  ((cluster.map fun c => (c.1 : ℚ)).sum / cluster.length,
   (cluster.map fun c => (c.2.1 : ℚ)).sum / cluster.length,
   (cluster.map fun c => (c.2.2 : ℚ)).sum / cluster.length)

/-- One Lloyd iteration of `Posterizer.kMeans`: assign every pixel to its
nearest centroid (the push order preserves pixel order, so cluster `j` is
the in-order filter), then recompute means, keeping the previous centroid
for an empty cluster (`clusters.indexOf(cluster)` resolves to `j` because
each empty array is a distinct object). -/
def lloydStep (pixels : List RGB) (k : ℕ) (cents : List RGBQ) : List RGBQ :=
  (List.range k).map fun j =>
    let cluster := pixels.filter fun p => findNearestCentroid p cents == j
    if cluster = [] then cents.getD j (0, 0, 0) else calculateMean cluster

/-- `Posterizer.centroidsEqual(old, newC)` with threshold 1
(`colorDistance > 1` iff squared distance > 1). -/
def centroidsEqual (old newC : List RGBQ) : Bool :=
  (old.zip newC).all fun cc => decide (colorDistSqQ cc.1 cc.2 ≤ 1)

/-- The `while (!hasConverged && iterations < maxIterations)` loop of
`Posterizer.kMeans` (fuel = remaining iterations, 50 at the top call).
When the new centroids are within threshold the loop stops and the new
centroids are returned (the source assigns `centroids = newCentroids`
before testing the flag). -/
def lloydIter (pixels : List RGB) (k : ℕ) : ℕ → List RGBQ → List RGBQ
  | 0, cents => cents
  | n + 1, cents =>
    let newCents := lloydStep pixels k cents
    if centroidsEqual cents newCents then newCents
    else lloydIter pixels k n newCents

/-- `centroids.map(c => c.map(Math.round))`: final integer rounding.  The
rounded channels are nonnegative (cluster means of nonnegative values), so
`Int.toNat` is exact. -/
def roundCentroid (c : RGBQ) : RGB :=
  ((jsRound c.1).toNat, (jsRound c.2.1).toNat, (jsRound c.2.2).toNat)

/-- `Posterizer.kMeans(pixels, k)`: fall back to the default palette when
there are fewer sample points than clusters, otherwise run k-means++
initialization and at most 50 Lloyd iterations, then round. -/
def kMeans (pixels : List RGB) (k : ℕ) (rand : ℕ → ℚ) : List RGB :=
  if pixels.length < k then generateDefaultPalette k
  else
    (lloydIter pixels k 50
      ((initializeCentroidsKMeansPlusPlus pixels k rand).map toQ)).map
      roundCentroid

/-- `Posterizer.extractColors(imageData, k)`: subsample opaque pixels; if
none were collected return the default palette, otherwise cluster. -/
def extractColors (buf : ImageBuffer) (k : ℕ) (rand : ℕ → ℚ) : List RGB :=
  if sampledPixels buf = [] then generateDefaultPalette k
  else kMeans (sampledPixels buf) k rand

theorem minDistSqToCentroids_nonneg (p : RGB) (cents : List RGB) :
    0 ≤ minDistSqToCentroids p cents := by
  unfold minDistSqToCentroids
  match cents with
  | [] => exact le_refl 0
  | c :: cs =>
    have : ∀ (l : List RGB) (m : ℤ), 0 ≤ m →
        0 ≤ l.foldl (fun m c2 => min m (colorDistSq p c2)) m := by
      intro l
      induction l with
      | nil => intro m hm; exact hm
      | cons d ds ih =>
        intro m hm
        exact ih _ (le_min hm (colorDistSq_nonneg p d))
    exact this cs _ (colorDistSq_nonneg p c)

theorem rouletteAux_isSome (l : List (RGB × ℤ)) :
    ∀ r : ℚ, l ≠ [] → r ≤ (((l.map Prod.snd).sum : ℤ) : ℚ) →
      (rouletteAux r l).isSome := by
  induction l with
  | nil => intro r h _; exact absurd rfl h
  | cons pd rest ih =>
    intro r _ hr
    obtain ⟨p, d⟩ := pd
    unfold rouletteAux
    by_cases h : r - (d : ℚ) ≤ 0
    · simp [h]
    · simp only [h, if_neg, not_false_iff]
      have hsum : ((((p, d) :: rest).map Prod.snd).sum : ℤ) =
          d + ((rest.map Prod.snd).sum : ℤ) := by simp
      have hr2 : r - (d : ℚ) ≤ (((rest.map Prod.snd).sum : ℤ) : ℚ) := by
        rw [hsum] at hr
        push_cast at hr ⊢
        linarith
      have hrest : rest ≠ [] := by
        intro hnil
        rw [hnil] at hr2
        simp at hr2
        exact h (by linarith)
      exact ih _ hrest hr2

theorem rouletteAux_mem (l : List (RGB × ℤ)) :
    ∀ (r : ℚ) (p : RGB), rouletteAux r l = some p → p ∈ l.map Prod.fst := by
  induction l with
  | nil => intro r p h; simp [rouletteAux] at h
  | cons pd rest ih =>
    intro r p h
    obtain ⟨q, d⟩ := pd
    unfold rouletteAux at h
    by_cases hc : r - (d : ℚ) ≤ 0
    · simp only [hc, if_pos, Option.some.injEq] at h
      subst h
      simp
    · simp only [hc, if_neg, not_false_iff] at h
      exact List.mem_cons_of_mem _ (ih _ p h)

theorem kppIter_length (pixels : List RGB) (rand : ℕ → ℚ)
    (hpix : pixels ≠ []) (hrand : ∀ n, 0 ≤ rand n ∧ rand n < 1) :
    ∀ (n i : ℕ) (cents : List RGB),
      (kppIter pixels rand n i cents).length = cents.length + n := by
  intro n
  induction n with
  | zero => intro i cents; simp [kppIter]
  | succ m ih =>
    intro i cents
    have hd0 : ∀ x ∈ pixels.map fun p => minDistSqToCentroids p cents,
        (0 : ℤ) ≤ x := by
      intro x hx
      obtain ⟨p, -, rfl⟩ := List.mem_map.mp hx
      exact minDistSqToCentroids_nonneg p cents
    have hsum0 : (0 : ℤ) ≤
        ((pixels.map fun p => minDistSqToCentroids p cents).sum : ℤ) :=
      List.sum_nonneg hd0
    have hlen : (pixels.map fun p => minDistSqToCentroids p cents).length =
        pixels.length := List.length_map _ _
    have hr : rand i *
        (((pixels.map fun p => minDistSqToCentroids p cents).sum : ℤ) : ℚ) ≤
        (((pixels.map fun p => minDistSqToCentroids p cents).sum : ℤ) : ℚ) := by
      have h0 : (0 : ℚ) ≤
          (((pixels.map fun p => minDistSqToCentroids p cents).sum : ℤ) : ℚ) := by
        exact_mod_cast hsum0
      have h1 : rand i ≤ 1 := le_of_lt (hrand i).2
      nlinarith [(hrand i).1]
    have hzip : (pixels.zip
        (pixels.map fun p => minDistSqToCentroids p cents)).map Prod.snd =
        pixels.map fun p => minDistSqToCentroids p cents :=
      List.map_snd_zip _ _ (le_of_eq hlen)
    have hzne : pixels.zip
        (pixels.map fun p => minDistSqToCentroids p cents) ≠ [] := by
      intro hnil
      have := congrArg List.length hnil
      simp [hlen] at this
      exact hpix this
    have hsome := rouletteAux_isSome _
      (rand i *
        (((pixels.map fun p => minDistSqToCentroids p cents).sum : ℤ) : ℚ))
      hzne (by rw [hzip]; exact hr)
    obtain ⟨p, hp⟩ := Option.isSome_iff_exists.mp hsome
    simp only [kppIter, hp]
    rw [ih (i + 1) (cents ++ [p])]
    simp
    omega

theorem kppIter_subset (pixels : List RGB) (rand : ℕ → ℚ) :
    ∀ (n i : ℕ) (cents : List RGB) (x : RGB),
      x ∈ kppIter pixels rand n i cents → x ∈ cents ∨ x ∈ pixels := by
  intro n
  induction n with
  | zero => intro i cents x hx; exact Or.inl (by simpa [kppIter] using hx)
  | succ m ih =>
    intro i cents x hx
    rcases hcase : rouletteAux
        (rand i *
          (((pixels.map fun p => minDistSqToCentroids p cents).sum : ℤ) : ℚ))
        (pixels.zip (pixels.map fun p => minDistSqToCentroids p cents)) with
      _ | p
    · simp only [kppIter, hcase] at hx
      exact ih _ _ x hx
    · simp only [kppIter, hcase] at hx
      rcases ih _ _ x hx with h1 | h1
      · rcases List.mem_append.mp h1 with h2 | h2
        · exact Or.inl h2
        · right
          have hp : p ∈ pixels := by
            have hmem := rouletteAux_mem _ _ _ hcase
            have hlen : (pixels.map fun q => minDistSqToCentroids q cents).length =
                pixels.length := List.length_map _ _
            rwa [List.map_fst_zip _ _ (le_of_eq hlen.symm)] at hmem
          simpa using (List.mem_singleton.mp h2) ▸ hp
      · exact Or.inr h1

theorem getD_mem {α : Type} (l : List α) (i : ℕ) (d : α)
    (h : i < l.length) : l.getD i d ∈ l := by
  induction l generalizing i with
  | nil => simp at h
  | cons p ps ih =>
    cases i with
    | zero => simp
    | succ j =>
      simp only [List.getD_cons_succ]
      exact List.mem_cons_of_mem _ (ih j (by simpa using h))

theorem initializeCentroids_length (pixels : List RGB) (k : ℕ)
    (rand : ℕ → ℚ) (hpix : pixels ≠ [])
    (hrand : ∀ n, 0 ≤ rand n ∧ rand n < 1) (hk : 1 ≤ k) :
    (initializeCentroidsKMeansPlusPlus pixels k rand).length = k := by
  unfold initializeCentroidsKMeansPlusPlus
  rw [kppIter_length pixels rand hpix hrand (k - 1) 1]
  simp
  omega

theorem initializeCentroids_subset (pixels : List RGB) (k : ℕ)
    (rand : ℕ → ℚ) (hpix : pixels ≠ [])
    (hrand : ∀ n, 0 ≤ rand n ∧ rand n < 1) :
    ∀ x ∈ initializeCentroidsKMeansPlusPlus pixels k rand, x ∈ pixels := by
  intro x hx
  unfold initializeCentroidsKMeansPlusPlus at hx
  rcases kppIter_subset pixels rand (k - 1) 1 _ x hx with h1 | h1
  · have hx1 : x = pixels.getD (⌊rand 0 * (pixels.length : ℚ)⌋).toNat default :=
      List.mem_singleton.mp h1
    have hlen : 0 < pixels.length := List.length_pos.mpr hpix
    have hfl0 : 0 ≤ ⌊rand 0 * (pixels.length : ℚ)⌋ :=
      Int.floor_nonneg.mpr (mul_nonneg (hrand 0).1 (by positivity))
    have hflt : ⌊rand 0 * (pixels.length : ℚ)⌋ < (pixels.length : ℤ) := by
      have h1q : rand 0 * (pixels.length : ℚ) < (pixels.length : ℚ) := by
        have := (hrand 0).2
        have hlq : (0 : ℚ) < (pixels.length : ℚ) := by exact_mod_cast hlen
        nlinarith [(hrand 0).1]
      have h2q : (⌊rand 0 * (pixels.length : ℚ)⌋ : ℚ) ≤
          rand 0 * (pixels.length : ℚ) := Int.floor_le _
      have : (⌊rand 0 * (pixels.length : ℚ)⌋ : ℚ) < (pixels.length : ℚ) :=
        lt_of_le_of_lt h2q h1q
      exact_mod_cast this
    have hidx : (⌊rand 0 * (pixels.length : ℚ)⌋).toNat < pixels.length := by
      omega
    rw [hx1]
    exact getD_mem pixels _ default hidx
  · exact h1

/-- A rational color with every channel in `[0, 255]`. -/
def inRangeQ (c : RGBQ) : Prop :=
  (0 ≤ c.1 ∧ c.1 ≤ 255) ∧ (0 ≤ c.2.1 ∧ c.2.1 ≤ 255) ∧
    (0 ≤ c.2.2 ∧ c.2.2 ≤ 255)

theorem lloydStep_length (pixels : List RGB) (k : ℕ) (cents : List RGBQ) :
    (lloydStep pixels k cents).length = k := by
  unfold lloydStep
  rw [List.length_map, List.length_range]

theorem lloydIter_length (pixels : List RGB) (k : ℕ) :
    ∀ (n : ℕ) (cents : List RGBQ), cents.length = k →
      (lloydIter pixels k n cents).length = k := by
  intro n
  induction n with
  | zero => intro cents h; exact h
  | succ m ih =>
    intro cents h
    unfold lloydIter
    by_cases hc : centroidsEqual cents (lloydStep pixels k cents)
    · simp only [hc, if_pos]
      exact lloydStep_length pixels k cents
    · simp only [hc, if_neg, not_false_iff]
      exact ih _ (lloydStep_length pixels k cents)

/-- Mean of a nonempty list of rationals in `[0, 255]` is in `[0, 255]`. -/
theorem mean_channel_bounds (l : List ℚ) (hne : l ≠ [])
    (h0 : ∀ x ∈ l, 0 ≤ x) (h255 : ∀ x ∈ l, x ≤ 255) :
    0 ≤ l.sum / l.length ∧ l.sum / l.length ≤ 255 := by
  have hlen : 0 < l.length := List.length_pos.mpr hne
  have hlenq : (0 : ℚ) < (l.length : ℚ) := by exact_mod_cast hlen
  have hs0 : 0 ≤ l.sum := List.sum_nonneg h0
  have hs255 : l.sum ≤ (l.length : ℚ) * 255 := by
    have := List.sum_le_card_nsmul l 255 h255
    simpa [nsmul_eq_mul] using this
  constructor
  · positivity
  · rw [div_le_iff hlenq]
    linarith

theorem calculateMean_inRange (cluster : List RGB) (hne : cluster ≠ [])
    (hb : ∀ c ∈ cluster, c.1 ≤ 255 ∧ c.2.1 ≤ 255 ∧ c.2.2 ≤ 255) :
    inRangeQ (calculateMean cluster) := by
  have hmap : ∀ f : RGB → ℚ, (cluster.map f) ≠ [] := by
    intro f h
    exact hne (List.map_eq_nil.mp h)
  have hch : ∀ (f : RGB → ℚ), (∀ c ∈ cluster, 0 ≤ f c) →
      (∀ c ∈ cluster, f c ≤ 255) →
      0 ≤ (cluster.map f).sum / cluster.length ∧
        (cluster.map f).sum / cluster.length ≤ 255 := by
    intro f hf0 hf255
    have := mean_channel_bounds (cluster.map f) (hmap f)
      (by intro x hx; obtain ⟨c, hc, rfl⟩ := List.mem_map.mp hx; exact hf0 c hc)
      (by intro x hx; obtain ⟨c, hc, rfl⟩ := List.mem_map.mp hx; exact hf255 c hc)
    rwa [List.length_map] at this
  unfold calculateMean inRangeQ
  refine ⟨?_, ?_, ?_⟩
  · exact hch (fun c => (c.1 : ℚ)) (fun c _ => by positivity)
      (fun c hc => by show (c.1 : ℚ) ≤ 255; exact_mod_cast (hb c hc).1)
  · exact hch (fun c => (c.2.1 : ℚ)) (fun c _ => by positivity)
      (fun c hc => by show (c.2.1 : ℚ) ≤ 255; exact_mod_cast (hb c hc).2.1)
  · exact hch (fun c => (c.2.2 : ℚ)) (fun c _ => by positivity)
      (fun c hc => by show (c.2.2 : ℚ) ≤ 255; exact_mod_cast (hb c hc).2.2)

theorem lloydStep_inRange (pixels : List RGB) (k : ℕ) (cents : List RGBQ)
    (hpix : ∀ p ∈ pixels, p.1 ≤ 255 ∧ p.2.1 ≤ 255 ∧ p.2.2 ≤ 255)
    (hc : ∀ c ∈ cents, inRangeQ c) :
    ∀ c ∈ lloydStep pixels k cents, inRangeQ c := by
  intro c hcm
  unfold lloydStep at hcm
  obtain ⟨j, -, rfl⟩ := List.mem_map.mp hcm
  by_cases hcl : (pixels.filter fun p => findNearestCentroid p cents == j) = []
  · simp only [hcl, if_pos]
    by_cases hj : j < cents.length
    · exact hc _ (getD_mem cents j (0, 0, 0) hj)
    · rw [getD_of_le cents j (0, 0, 0) (Nat.le_of_not_lt hj)]
      unfold inRangeQ
      norm_num
  · simp only [hcl, if_neg, not_false_iff]
    apply calculateMean_inRange _ hcl
    intro p hp
    exact hpix p (List.mem_of_mem_filter hp)

theorem lloydIter_inRange (pixels : List RGB) (k : ℕ)
    (hpix : ∀ p ∈ pixels, p.1 ≤ 255 ∧ p.2.1 ≤ 255 ∧ p.2.2 ≤ 255) :
    ∀ (n : ℕ) (cents : List RGBQ), (∀ c ∈ cents, inRangeQ c) →
      ∀ c ∈ lloydIter pixels k n cents, inRangeQ c := by
  intro n
  induction n with
  | zero => intro cents h; exact h
  | succ m ih =>
    intro cents h
    unfold lloydIter
    by_cases hc : centroidsEqual cents (lloydStep pixels k cents)
    · simp only [hc, if_pos]
      exact lloydStep_inRange pixels k cents hpix h
    · simp only [hc, if_neg, not_false_iff]
      exact ih _ (lloydStep_inRange pixels k cents hpix h)

/-- Rounding a rational in `[0, 255]` stays in `[0, 255]` (as ℕ). -/
theorem jsRound_toNat_le (q : ℚ) (h255 : q ≤ 255) :
    (jsRound q).toNat ≤ 255 := by
  have hub : (q + 1 / 2 : ℚ) < 256 := by linarith
  have hfl : (⌊(q + 1 / 2 : ℚ)⌋ : ℚ) ≤ (q + 1 / 2 : ℚ) := Int.floor_le _
  have : (⌊(q + 1 / 2 : ℚ)⌋ : ℚ) < 256 := lt_of_le_of_lt hfl hub
  have hint : ⌊(q + 1 / 2 : ℚ)⌋ < 256 := by exact_mod_cast this
  unfold jsRound
  omega

theorem roundCentroid_le (c : RGBQ) (h : inRangeQ c) :
    (roundCentroid c).1 ≤ 255 ∧ (roundCentroid c).2.1 ≤ 255 ∧
      (roundCentroid c).2.2 ≤ 255 := by
  obtain ⟨⟨-, h1⟩, ⟨-, h2⟩, ⟨-, h3⟩⟩ := h
  exact ⟨jsRound_toNat_le _ h1, jsRound_toNat_le _ h2, jsRound_toNat_le _ h3⟩

/-- `kMeans` returns exactly `k` colors with channels in `[0, 255]`, for
every outcome of the random draws. -/
theorem kMeans_length_bounds (pixels : List RGB) (k : ℕ) (rand : ℕ → ℚ)
    (hk : 1 ≤ k) (hpix : pixels ≠ [])
    (hb : ∀ p ∈ pixels, p.1 ≤ 255 ∧ p.2.1 ≤ 255 ∧ p.2.2 ≤ 255)
    (hrand : ∀ n, 0 ≤ rand n ∧ rand n < 1) :
    (kMeans pixels k rand).length = k ∧
    ∀ c ∈ kMeans pixels k rand,
      c.1 ≤ 255 ∧ c.2.1 ≤ 255 ∧ c.2.2 ≤ 255 := by
  unfold kMeans
  by_cases hlt : pixels.length < k
  · simp only [hlt, if_pos]
    exact ⟨generateDefaultPalette_length k, generateDefaultPalette_le k⟩
  · simp only [hlt, if_neg, not_false_iff]
    have hinitlen : ((initializeCentroidsKMeansPlusPlus pixels k rand).map
        toQ).length = k := by
      rw [List.length_map]
      exact initializeCentroids_length pixels k rand hpix hrand hk
    have hinitrange : ∀ c ∈ (initializeCentroidsKMeansPlusPlus pixels k
        rand).map toQ, inRangeQ c := by
      intro c hcm
      obtain ⟨x, hx, rfl⟩ := List.mem_map.mp hcm
      have hxp := initializeCentroids_subset pixels k rand hpix hrand x hx
      obtain ⟨hb1, hb2, hb3⟩ := hb x hxp
      unfold toQ inRangeQ
      refine ⟨⟨by positivity, ?_⟩, ⟨by positivity, ?_⟩, ⟨by positivity, ?_⟩⟩
      · show (x.1 : ℚ) ≤ 255
        exact_mod_cast hb1
      · show (x.2.1 : ℚ) ≤ 255
        exact_mod_cast hb2
      · show (x.2.2 : ℚ) ≤ 255
        exact_mod_cast hb3
    constructor
    · rw [List.length_map]
      exact lloydIter_length pixels k 50 _ hinitlen
    · intro c hcm
      obtain ⟨cq, hcq, rfl⟩ := List.mem_map.mp hcm
      exact roundCentroid_le cq
        (lloydIter_inRange pixels k hb 50 _ hinitrange cq hcq)

theorem sampledPixels_subset (buf : ImageBuffer) :
    ∀ c ∈ sampledPixels buf, ∃ px ∈ buf.data, c = px.rgb := by
  intro c hc
  unfold sampledPixels at hc
  obtain ⟨ic, hmem, heq⟩ := List.mem_filterMap.mp hc
  have hpx : buf.data.get? ic.1 = some ic.2 := List.mem_enum_iff_get?.mp hmem
  have hin : ic.2 ∈ buf.data := List.get?_mem hpx
  refine ⟨ic.2, hin, ?_⟩
  by_cases hcond : ic.1 % sampleStep buf = 0 ∧ 128 ≤ ic.2.a
  · rw [if_pos hcond] at heq
    exact (Option.some.injEq _ _ ▸ heq).symm
  · rw [if_neg hcond] at heq
    exact absurd heq (Option.noConfusion)

theorem sampledPixels_ne_nil (buf : ImageBuffer) (hne : buf.data ≠ [])
    (halpha : ∀ px ∈ buf.data, 128 ≤ px.a) : sampledPixels buf ≠ [] := by
  obtain ⟨p, rest, hdata⟩ := List.exists_cons_of_ne_nil hne
  apply List.ne_nil_of_mem (a := p.rgb)
  unfold sampledPixels
  apply List.mem_filterMap.mpr
  refine ⟨(0, p), ?_, ?_⟩
  · apply List.mem_enum_iff_get?.mpr
    rw [hdata]
    rfl
  · have hcond : (0 : ℕ) % sampleStep buf = 0 ∧ 128 ≤ p.a :=
      ⟨Nat.zero_mod _, halpha p (hdata ▸ List.mem_cons_self p rest)⟩
    rw [if_pos hcond]

/-- C2: for every K in [2, 16], every non-empty buffer whose pixels all
have alpha ≥ 128 (and 8-bit channels, as `Uint8ClampedArray` guarantees),
and every outcome of the internal random draws, `extractColors` returns
exactly K colors, each channel a natural number ≤ 255. -/
theorem C2_extract_k_colors (buf : ImageBuffer) (k : ℕ) (rand : ℕ → ℚ)
    (hk2 : 2 ≤ k) (hk16 : k ≤ 16) (hne : buf.data ≠ [])
    (halpha : ∀ px ∈ buf.data, 128 ≤ px.a)
    (hbound : ∀ px ∈ buf.data, px.r ≤ 255 ∧ px.g ≤ 255 ∧ px.b ≤ 255)
    (hrand : ∀ n, 0 ≤ rand n ∧ rand n < 1) :
    (extractColors buf k rand).length = k ∧
    ∀ c ∈ extractColors buf k rand,
      c.1 ≤ 255 ∧ c.2.1 ≤ 255 ∧ c.2.2 ≤ 255 := by
  have hsne : sampledPixels buf ≠ [] := sampledPixels_ne_nil buf hne halpha
  have hsb : ∀ p ∈ sampledPixels buf,
      p.1 ≤ 255 ∧ p.2.1 ≤ 255 ∧ p.2.2 ≤ 255 := by
    intro p hp
    obtain ⟨px, hpx, rfl⟩ := sampledPixels_subset buf p hp
    obtain ⟨h1, h2, h3⟩ := hbound px hpx
    exact ⟨h1, h2, h3⟩
  unfold extractColors
  rw [if_neg hsne]
  exact kMeans_length_bounds _ k rand (by omega) hsne hsb hrand

/-- Witness for C2 at a concrete buffer, K = 2 and the all-zero random
source. -/
theorem C2_extract_k_colors_witness :
    ((2 : ℕ) ≤ 2 ∧ (2 : ℕ) ≤ 16 ∧
      (⟨2, 1, [⟨10, 20, 30, 255⟩, ⟨10, 20, 30, 255⟩]⟩ : ImageBuffer).data ≠ [] ∧
      (∀ px ∈ (⟨2, 1, [⟨10, 20, 30, 255⟩, ⟨10, 20, 30, 255⟩]⟩ : ImageBuffer).data,
        128 ≤ px.a) ∧
      (∀ px ∈ (⟨2, 1, [⟨10, 20, 30, 255⟩, ⟨10, 20, 30, 255⟩]⟩ : ImageBuffer).data,
        px.r ≤ 255 ∧ px.g ≤ 255 ∧ px.b ≤ 255)) ∧
    ((extractColors ⟨2, 1, [⟨10, 20, 30, 255⟩, ⟨10, 20, 30, 255⟩]⟩ 2
        (fun _ => 0)).length = 2 ∧
      ∀ c ∈ extractColors ⟨2, 1, [⟨10, 20, 30, 255⟩, ⟨10, 20, 30, 255⟩]⟩ 2
        (fun _ => 0), c.1 ≤ 255 ∧ c.2.1 ≤ 255 ∧ c.2.2 ≤ 255) :=
  ⟨by refine ⟨by norm_num, by norm_num, by simp, ?_, ?_⟩ <;> decide,
   C2_extract_k_colors ⟨2, 1, [⟨10, 20, 30, 255⟩, ⟨10, 20, 30, 255⟩]⟩ 2
     (fun _ => 0) (by norm_num) (by norm_num) (by simp) (by decide) (by decide)
     (fun n => ⟨le_refl 0, by norm_num⟩)⟩

/-- C4 counterexample: `extractColors` does not reject an out-of-range K.
At K = 17 (outside [2, 16]) on a 1-pixel buffer it silently proceeds and
returns a 17-color palette — there is no validation or clamping anywhere
in the function. -/
theorem C4_counterexample_k17_proceeds :
    ¬ ((2 : ℕ) ≤ 17 ∧ (17 : ℕ) ≤ 16) ∧
    (extractColors ⟨1, 1, [⟨1, 2, 3, 255⟩]⟩ 17 (fun _ => 0)).length = 17 := by
  constructor
  · decide
  · decide

/-- C4 amended: the core performs no validation of K at all.  For every
buffer, every K ≥ 1 and every valid random source, `extractColors`
proceeds normally and returns exactly K colors; K is never clamped into
[2, 16] and no error path exists.  (For K = 0 with a nonempty sample the
source throws a `TypeError` while distributing pixels into the empty
cluster array, which is an accident of the missing validation, not a
contract check.) -/
theorem C4_amended_no_validation (buf : ImageBuffer) (k : ℕ)
    (rand : ℕ → ℚ) (hk : 1 ≤ k) (hrand : ∀ n, 0 ≤ rand n ∧ rand n < 1) :
    (extractColors buf k rand).length = k := by
  unfold extractColors
  by_cases hs : sampledPixels buf = []
  · rw [if_pos hs]
    exact generateDefaultPalette_length k
  · rw [if_neg hs]
    unfold kMeans
    by_cases hlt : (sampledPixels buf).length < k
    · rw [if_pos hlt]
      exact generateDefaultPalette_length k
    · rw [if_neg hlt]
      rw [List.length_map]
      apply lloydIter_length
      rw [List.length_map]
      exact initializeCentroids_length _ k rand hs hrand hk

/-- Witness for the amended C4 at K = 17. -/
theorem C4_amended_no_validation_witness :
    ((1 : ℕ) ≤ 17) ∧
    (extractColors ⟨1, 2, [⟨1, 2, 3, 255⟩, ⟨200, 100, 0, 255⟩]⟩ 17
      (fun _ => 0)).length = 17 :=
  ⟨by norm_num,
   C4_amended_no_validation ⟨1, 2, [⟨1, 2, 3, 255⟩, ⟨200, 100, 0, 255⟩]⟩ 17
     (fun _ => 0) (by norm_num) (fun n => ⟨le_refl 0, by norm_num⟩)⟩

/-- C6: when the sample set is empty or smaller than K, `extractColors`
skips clustering and returns the deterministic fallback palette: K colors
with hues `i * 360 / k` (evenly spaced on the hue wheel), saturation 70,
lightness 50, converted by the source's piecewise HSL→RGB conversion with
rounded channels — independent of the random source. -/
theorem C6_fallback_palette (buf : ImageBuffer) (k : ℕ) (rand : ℕ → ℚ)
    (h : sampledPixels buf = [] ∨ (sampledPixels buf).length < k) :
    extractColors buf k rand =
      (List.range k).map fun (i : ℕ) =>
        hslToRgb (360 * (i : ℚ) / (k : ℚ)) 70 50 := by
  rw [← generateDefaultPalette_formula]
  unfold extractColors
  by_cases hs : sampledPixels buf = []
  · rw [if_pos hs]
  · rw [if_neg hs]
    rcases h with h | h
    · exact absurd h hs
    · unfold kMeans
      rw [if_pos h]

/-- Witness for C6: a fully transparent 1-pixel buffer samples nothing, so
K = 3 falls back to the hue-wheel palette. -/
theorem C6_fallback_palette_witness :
    (sampledPixels ⟨1, 1, [⟨5, 6, 7, 0⟩]⟩ = [] ∨
      (sampledPixels ⟨1, 1, [⟨5, 6, 7, 0⟩]⟩).length < 3) ∧
    extractColors ⟨1, 1, [⟨5, 6, 7, 0⟩]⟩ 3 (fun _ => 1 / 2) =
      (List.range 3).map fun (i : ℕ) =>
        hslToRgb (360 * (i : ℚ) / (3 : ℚ)) 70 50 :=
  ⟨Or.inl (by decide),
   C6_fallback_palette ⟨1, 1, [⟨5, 6, 7, 0⟩]⟩ 3 (fun _ => 1 / 2)
     (Or.inl (by decide))⟩

/-- A 2D contour point (sub-pixel coordinates are multiples of 1/2 in the
tracer, rationals here). -/
abbrev Point : Type := ℚ × ℚ

/-- `SVGExporter.perpendicularDistance(point, lineStart, lineEnd)`, in
squared form: the source returns `|num| / Math.sqrt(den)` (0 when
`den = 0`); within one `simplifyPath` call the chord is fixed, so all
comparisons between distances, and against the tolerance, are
order-equivalent to comparisons of this squared value against a squared
tolerance. -/
def perpendicularDistanceSq (p lineStart lineEnd : Point) : ℚ :=
  if (lineEnd.1 - lineStart.1) * (lineEnd.1 - lineStart.1) +
      (lineEnd.2 - lineStart.2) * (lineEnd.2 - lineStart.2) = 0 then 0
  else
    (((lineEnd.2 - lineStart.2) * p.1 - (lineEnd.1 - lineStart.1) * p.2 +
        lineEnd.1 * lineStart.2 - lineEnd.2 * lineStart.1) *
      ((lineEnd.2 - lineStart.2) * p.1 - (lineEnd.1 - lineStart.1) * p.2 +
        lineEnd.1 * lineStart.2 - lineEnd.2 * lineStart.1)) /
      ((lineEnd.1 - lineStart.1) * (lineEnd.1 - lineStart.1) +
        (lineEnd.2 - lineStart.2) * (lineEnd.2 - lineStart.2))

/-- The `maxDist / maxIndex` scan of `SVGExporter.simplifyPath`
(`for (let i = 1; i < points.length - 1; i++)`, update on strictly
greater distance; both start at 0). -/
def rdpMax (points : List Point) (first lastP : Point) : ℚ × ℕ :=
  ((List.range (points.length - 2)).map (· + 1)).foldl
    (fun md i =>
      if perpendicularDistanceSq (points.getD i (0, 0)) first lastP > md.1
      then (perpendicularDistanceSq (points.getD i (0, 0)) first lastP, i)
      else md)
    (0, 0)

/-- `SVGExporter.simplifyPath(points, tolerance)` (Ramer-Douglas-Peucker)
with explicit fuel.  For the source's nonnegative tolerances the recursion
strictly shrinks the list, so the wrapper's fuel (`points.length`)
dominates the real recursion depth; `tol` here is the squared tolerance. -/
def simplifyPathAux (tol : ℚ) : ℕ → List Point → List Point
  | 0, points => points
  | fuel + 1, points =>
    if points.length ≤ 2 then points
    else
      let md := rdpMax points (points.getD 0 (0, 0))
        (points.getD (points.length - 1) (0, 0))
      if md.1 > tol then
        (simplifyPathAux tol fuel (points.take (md.2 + 1))).dropLast ++
          simplifyPathAux tol fuel (points.drop md.2)
      else [points.getD 0 (0, 0), points.getD (points.length - 1) (0, 0)]

def simplifyPath (points : List Point) (tol : ℚ) : List Point :=
  simplifyPathAux tol points.length points

/-- The scan index never exceeds `points.length - 2`. -/
theorem rdpMax_idx_le (points : List Point) (first lastP : Point) :
    (rdpMax points first lastP).2 ≤ points.length - 2 := by
  unfold rdpMax
  have hgen : ∀ (l : List ℕ) (st : ℚ × ℕ),
      (∀ i ∈ l, i ≤ points.length - 2) → st.2 ≤ points.length - 2 →
      ((l.foldl
        (fun md i =>
          if perpendicularDistanceSq (points.getD i (0, 0)) first lastP > md.1
          then (perpendicularDistanceSq (points.getD i (0, 0)) first lastP, i)
          else md) st).2 ≤ points.length - 2) := by
    intro l
    induction l with
    | nil => intro st _ h; exact h
    | cons j js ih =>
      intro st hall hst
      simp only [List.foldl_cons]
      by_cases hcmp : perpendicularDistanceSq (points.getD j (0, 0)) first
          lastP > st.1
      · simp only [hcmp, if_pos]
        exact ih _ (fun i hi => hall i (List.mem_cons_of_mem _ hi))
          (hall j (List.mem_cons_self _ _))
      · simp only [hcmp, if_neg, not_false_iff]
        exact ih _ (fun i hi => hall i (List.mem_cons_of_mem _ hi)) hst
  apply hgen
  · intro i hi
    obtain ⟨j, hj, rfl⟩ := List.mem_map.mp hi
    have := List.mem_range.mp hj
    omega
  · exact Nat.zero_le _

theorem head?_take_succ {α : Type} (l : List α) (n : ℕ) :
    (l.take (n + 1)).head? = l.head? := by
  cases l <;> simp

theorem head?_dropLast_of_two_le {α : Type} (l : List α)
    (h : 2 ≤ l.length) : l.dropLast.head? = l.head? := by
  match l with
  | a :: b :: t => simp
  | [] => simp at h
  | [a] => simp at h

theorem getLast?_drop_of_lt {α : Type} :
    ∀ (l : List α) (n : ℕ), n < l.length → (l.drop n).getLast? = l.getLast?
  | _, 0, _ => rfl
  | a :: t, n + 1, h => by
    simp only [List.drop_succ_cons]
    rw [getLast?_drop_of_lt t n (by simpa using h)]
    cases t with
    | nil => simp at h
    | cons b u => simp

/-- Core RDP invariant: for every fuel, `simplifyPathAux` never lengthens
the list, returns at least 2 points when given at least 2, and preserves
the head and last elements. -/
theorem simplifyPathAux_spec (tol : ℚ) :
    ∀ (fuel : ℕ) (points : List Point),
      (simplifyPathAux tol fuel points).length ≤ points.length ∧
      (2 ≤ points.length → 2 ≤ (simplifyPathAux tol fuel points).length) ∧
      (simplifyPathAux tol fuel points).head? = points.head? ∧
      (simplifyPathAux tol fuel points).getLast? = points.getLast? := by
  intro fuel
  induction fuel with
  | zero => intro points; exact ⟨le_refl _, fun h => h, rfl, rfl⟩
  | succ n ih =>
    intro points
    by_cases hlen : points.length ≤ 2
    · have hres : simplifyPathAux tol (n + 1) points = points := by
        simp only [simplifyPathAux, hlen, if_pos]
      rw [hres]
      exact ⟨le_refl _, fun h => h, rfl, rfl⟩
    · have hlen3 : 3 ≤ points.length := by omega
      have hne : points ≠ [] := by
        intro h; rw [h] at hlen3; simp at hlen3
      by_cases hcmp : (rdpMax points (points.getD 0 (0, 0))
          (points.getD (points.length - 1) (0, 0))).1 > tol
      · have hres : simplifyPathAux tol (n + 1) points =
            (simplifyPathAux tol n
              (points.take ((rdpMax points (points.getD 0 (0, 0))
                (points.getD (points.length - 1) (0, 0))).2 + 1))).dropLast ++
            simplifyPathAux tol n
              (points.drop (rdpMax points (points.getD 0 (0, 0))
                (points.getD (points.length - 1) (0, 0))).2) := by
          simp only [simplifyPathAux, hlen, hcmp, if_neg, if_pos,
            not_false_iff]
        set mi := (rdpMax points (points.getD 0 (0, 0))
          (points.getD (points.length - 1) (0, 0))).2 with hmi
        have hmile : mi ≤ points.length - 2 := rdpMax_idx_le points _ _
        obtain ⟨hl1, hl2, hl3, hl4⟩ := ih (points.take (mi + 1))
        obtain ⟨hr1, hr2, hr3, hr4⟩ := ih (points.drop mi)
        have htakelen : (points.take (mi + 1)).length = mi + 1 := by
          rw [List.length_take]
          omega
        have hdroplen : (points.drop mi).length = points.length - mi := by
          rw [List.length_drop]
        have hdrop2 : 2 ≤ (points.drop mi).length := by omega
        have hright2 : 2 ≤ (simplifyPathAux tol n (points.drop mi)).length :=
          hr2 hdrop2
        have hrightne : simplifyPathAux tol n (points.drop mi) ≠ [] := by
          intro h
          rw [h] at hright2
          simp at hright2
        rw [hres]
        refine ⟨?_, ?_, ?_, ?_⟩
        · rw [List.length_append, List.length_dropLast]
          omega
        · intro _
          rw [List.length_append, List.length_dropLast]
          omega
        · by_cases hmi0 : mi = 0
          · have hleft1 : (simplifyPathAux tol n (points.take (mi + 1))).length ≤ 1 := by
              omega
            have hdl : (simplifyPathAux tol n (points.take (mi + 1))).dropLast = [] := by
              have : (simplifyPathAux tol n (points.take (mi + 1))).dropLast.length = 0 := by
                rw [List.length_dropLast]
                omega
              exact List.eq_nil_of_length_eq_zero this
            rw [hdl, List.nil_append, hr3, hmi0, List.drop_zero]
          · have hmi1 : 1 ≤ mi := by omega
            have htake2 : 2 ≤ (points.take (mi + 1)).length := by omega
            have hleft2 := hl2 htake2
            have hdlne : (simplifyPathAux tol n (points.take (mi + 1))).dropLast ≠ [] := by
              intro h
              have := congrArg List.length h
              rw [List.length_dropLast] at this
              simp at this
              omega
            rw [List.head?_append_of_ne_nil _ hdlne]
            rw [head?_dropLast_of_two_le _ hleft2, hl3, head?_take_succ]
        · rw [List.getLast?_append_of_ne_nil _ hrightne, hr4,
            getLast?_drop_of_lt points mi (by omega)]
      · have hres : simplifyPathAux tol (n + 1) points =
            [points.getD 0 (0, 0), points.getD (points.length - 1) (0, 0)] := by
          simp only [simplifyPathAux, hlen, hcmp, if_neg, not_false_iff]
        rw [hres]
        refine ⟨?_, ?_, ?_, ?_⟩
        · simp only [List.length_cons, List.length_nil]
          omega
        · intro _
          simp
        · match points, hne with
          | p :: ps, _ => simp
        · have hlt : points.length - 1 < points.length := by omega
          have hlhs : ([points.getD 0 (0, 0),
              points.getD (points.length - 1) (0, 0)] : List Point).getLast? =
              some (points.getD (points.length - 1) (0, 0)) := rfl
          rw [hlhs, List.getLast?_eq_getElem?, List.getD_eq_getElem?_getD,
            List.getElem?_eq_getElem hlt]
          rfl

/-- C7: for every point list and every tolerance, RDP simplification
(`simplifyPath`) returns a list no longer than its input whose head and
last elements are those of the input (stated with `head?`/`getLast?`,
which also covers the empty list trivially). -/
theorem C7_simplifyPath_shrinks_keeps_endpoints (points : List Point)
    (tol : ℚ) :
    (simplifyPath points tol).length ≤ points.length ∧
    (simplifyPath points tol).head? = points.head? ∧
    (simplifyPath points tol).getLast? = points.getLast? := by
  obtain ⟨h1, -, h3, h4⟩ := simplifyPathAux_spec tol points.length points
  exact ⟨h1, h3, h4⟩

/-- Decimal-agnostic rendering of a coordinate.  The JS template literals
print IEEE doubles; the M/Z structure of the path string is independent of
how the numbers are rendered, so the embedding prints the rational
directly. -/
def numStr (q : ℚ) : String :=
  if q.den = 1 then toString q.num
  else toString q.num ++ "/" ++ toString q.den

/-- One `Q cx cy, ex ey` segment of `SVGExporter.smoothPath`: control
point = the interior point, endpoint = midpoint to the next point. -/
def qSeg (current next : Point) : String :=
  " Q " ++ numStr current.1 ++ " " ++ numStr current.2 ++ ", " ++
    numStr ((current.1 + next.1) / 2) ++ " " ++
    numStr ((current.2 + next.2) / 2)

/-- `SVGExporter.smoothPath(points)`: empty string for no points, a bare
`M x y` for a single point, otherwise `M`, one `Q` per interior point
(`i = 1 .. length - 2`, pairing `points[i]` with `points[i + 1]`), an `L`
to the last point and a closing `Z`.  String concatenation is regrouped
associatively so the leading `M ` and trailing ` Z` are the outermost
appends. -/
def smoothPath (points : List Point) : String :=
  match points with
  | [] => ""
  | [p] => "M " ++ (numStr p.1 ++ " " ++ numStr p.2)
  | p0 :: p1 :: rest =>
    ("M " ++
      (numStr p0.1 ++ " " ++ numStr p0.2 ++
        String.join (((p1 :: rest).zip rest).map fun cn => qSeg cn.1 cn.2) ++
        " L " ++ numStr ((p0 :: p1 :: rest).getLast (by simp)).1 ++ " " ++
        numStr ((p0 :: p1 :: rest).getLast (by simp)).2)) ++ " Z"

/-- C8 counterexample: on the empty point list `smoothPath` returns the
empty string, which does not start with `M` (and does not end with `Z`),
so the claim's universal "for every point list" fails. -/
theorem C8_counterexample_empty_path :
    smoothPath ([] : List Point) = "" ∧
    (smoothPath ([] : List Point)).data.head? ≠ some 'M' ∧
    (smoothPath ([] : List Point)).data.getLast? ≠ some 'Z' := by
  refine ⟨rfl, ?_, ?_⟩ <;> decide

/-- C8 amended: for every point list with at least 2 points, the string
returned by `smoothPath` starts with the command `M`, ends with the
command `Z`, and is non-empty.  (The empty list yields `""` and a
singleton yields a bare `M x y` without `Z`.) -/
theorem C8_amended_smoothPath_M_Z (points : List Point)
    (h : 2 ≤ points.length) :
    (smoothPath points).data.head? = some 'M' ∧
    (smoothPath points).data.getLast? = some 'Z' ∧
    smoothPath points ≠ "" := by
  match points, h with
  | p0 :: p1 :: rest, _ =>
    have hform : smoothPath (p0 :: p1 :: rest) =
        ("M " ++
          (numStr p0.1 ++ " " ++ numStr p0.2 ++
            String.join (((p1 :: rest).zip rest).map fun cn =>
              qSeg cn.1 cn.2) ++
            " L " ++ numStr ((p0 :: p1 :: rest).getLast (by simp)).1 ++ " " ++
            numStr ((p0 :: p1 :: rest).getLast (by simp)).2)) ++ " Z" := rfl
    rw [hform]
    have hMdata : ("M " : String).data = ['M', ' '] := rfl
    have hZdata : (" Z" : String).data = [' ', 'Z'] := rfl
    refine ⟨?_, ?_, ?_⟩
    · rw [String.data_append, String.data_append, hMdata]
      rw [List.head?_append_of_ne_nil _ (by simp),
        List.head?_append_of_ne_nil _ (by simp)]
      rfl
    · rw [String.data_append, hZdata]
      rw [List.getLast?_append_of_ne_nil _ (by simp)]
      rfl
    · intro hemp
      have hdata := congrArg String.data hemp
      rw [String.data_append, hZdata] at hdata
      have : ([] : List Char).length = 0 := rfl
      have hlen := congrArg List.length hdata
      rw [List.length_append] at hlen
      simp at hlen

/-- Witness for the amended C8 at a concrete 3-point contour. -/
theorem C8_amended_smoothPath_M_Z_witness :
    (2 ≤ ([((0 : ℚ), (0 : ℚ)), ((1 : ℚ), (0 : ℚ)), ((1 : ℚ), (1 : ℚ))] :
      List Point).length) ∧
    ((smoothPath [((0 : ℚ), (0 : ℚ)), ((1 : ℚ), (0 : ℚ)),
        ((1 : ℚ), (1 : ℚ))]).data.head? = some 'M' ∧
     (smoothPath [((0 : ℚ), (0 : ℚ)), ((1 : ℚ), (0 : ℚ)),
        ((1 : ℚ), (1 : ℚ))]).data.getLast? = some 'Z' ∧
     smoothPath [((0 : ℚ), (0 : ℚ)), ((1 : ℚ), (0 : ℚ)),
        ((1 : ℚ), (1 : ℚ))] ≠ "") :=
  ⟨by norm_num,
   C8_amended_smoothPath_M_Z
     [((0 : ℚ), (0 : ℚ)), ((1 : ℚ), (0 : ℚ)), ((1 : ℚ), (1 : ℚ))]
     (by norm_num)⟩

/-- The running minimum of `cleanEdges`' palette scan (`minDist` starts at
`Infinity`, modeled as `none`), in squared form. -/
def minPaletteDistSq (p : RGB) (palette : List RGB) : Option ℤ :=
  palette.foldl
    (fun m c =>
      match m with
      | none => some (colorDistSq p c)
      | some v => some (min v (colorDistSq p c))) none

/-- The `minDist > 5` test of `cleanEdges` (`Infinity > 5` is true;
`sqrt d > 5` iff `d > 25`). -/
def farFromPalette (p : RGB) (palette : List RGB) : Bool :=
  match minPaletteDistSq p palette with
  | none => true
  | some v => decide (25 < v)

/-- The 8 neighborhood offsets of `cleanEdges`, as `(dy, dx)` in the
source's iteration order (`dy` outer from -1 to 1, `dx` inner, skipping
`(0, 0)`). -/
def neighborOffsets : List (ℤ × ℤ) :=
  [(-1, -1), (-1, 0), (-1, 1), (0, -1), (0, 1), (1, -1), (1, 0), (1, 1)]

/-- The nearest palette color of each of the 8 neighbors of `(x, y)`, in
iteration order (`nIdx = ((y + dy) * width + (x + dx)) * 4` in the
source; `Int.toNat` is exact because the function is only reached for
interior pixels). -/
def neighborNearestColors (buf : ImageBuffer) (palette : List RGB)
    (x y : ℕ) : List RGB :=
  neighborOffsets.map fun dydx =>
    findNearestColor
      (buf.data.getD
        ((((y : ℤ) + dydx.1) * buf.width + ((x : ℤ) + dydx.2)).toNat)
        default).rgb
      palette

/-- One `neighborColors[colorKey] = (neighborColors[colorKey] || 0) + 1`
update: JS object keys (`"r,g,b"` strings) keep insertion order, so the
tally is an ordered association list keyed by first occurrence. -/
def bumpColor (counts : List (RGB × ℕ)) (c : RGB) : List (RGB × ℕ) :=
  if counts.any fun e => e.1 == c then
    counts.map fun e => if e.1 == c then (e.1, e.2 + 1) else e
  else counts ++ [(c, 1)]

def tallyColors (colors : List RGB) : List (RGB × ℕ) :=
  colors.foldl bumpColor []

/-- The `Object.entries` plurality pick of `cleanEdges`: `maxCount = 0`,
`bestColor = palette[0]`, update on strictly greater count (first maximal
entry in insertion order wins). -/
def pluralityColor (palette : List RGB) (counts : List (RGB × ℕ)) : RGB :=
  (counts.foldl (fun best e => if e.2 > best.2 then e else best)
    (palette.headD (0, 0, 0), 0)).1

/-- The per-pixel behavior of `Posterizer.cleanEdges`: the nested loops
only visit `1 ≤ x ≤ width - 2`, `1 ≤ y ≤ height - 2`, and rewrite the
three color channels of a pixel farther than distance 5 from every
palette color with the plurality vote of its neighbors' nearest palette
colors; every other pixel is copied unchanged. -/
def cleanPixel (buf : ImageBuffer) (palette : List RGB) (idx : ℕ)
    (px : Pixel) : Pixel :=
  let x := idx % buf.width
  let y := idx / buf.width
  if 1 ≤ x ∧ x + 1 < buf.width ∧ 1 ≤ y ∧ y + 1 < buf.height ∧
      farFromPalette px.rgb palette then
    let best := pluralityColor palette
      (tallyColors (neighborNearestColors buf palette x y))
    { px with r := best.1, g := best.2.1, b := best.2.2 }
  else px

/-- `Posterizer.cleanEdges(imageData, palette)`: copy the buffer, then
rewrite anti-aliased interior pixels.  All reads go to the original
`data`, and each loop iteration writes only the pixel at
`(y * width + x)`, so the nested loops equal this per-index map. -/
def cleanEdges (buf : ImageBuffer) (palette : List RGB) : ImageBuffer :=
  { buf with data := (buf.data.enumFrom 0).map fun ip =>
      cleanPixel buf palette ip.1 ip.2 }

theorem getD_map_enumFrom (f : ℕ × Pixel → Pixel) :
    ∀ (l : List Pixel) (s i : ℕ), i < l.length →
      ((l.enumFrom s).map f).getD i default = f (s + i, l.getD i default) := by
  intro l
  induction l with
  | nil => intro s i h; simp at h
  | cons p ps ih =>
    intro s i h
    cases i with
    | zero => simp [List.enumFrom]
    | succ j =>
      simp only [List.enumFrom, List.map_cons, List.getD_cons_succ]
      rw [ih (s + 1) j (by simpa using h),
        show s + 1 + j = s + (j + 1) from by omega]

/-- C9 counterexample: on a 3×3 buffer whose nine pixels are all
`(100, 100, 100)` (farther than distance 5 from the single palette color
`(0, 0, 0)`), `cleanEdges` reassigns the center pixel but leaves the
border pixel `(0, 0)` at `(100, 100, 100)`, although the claim requires
every far pixel to be reassigned to the plurality neighbor color
`(0, 0, 0)`. -/
theorem C9_counterexample_border_pixel_kept :
    farFromPalette (100, 100, 100) [(0, 0, 0)] = true ∧
    findNearestColor (100, 100, 100) [(0, 0, 0)] = (0, 0, 0) ∧
    ((100, 100, 100) : RGB) ≠ (0, 0, 0) ∧
    ((cleanEdges
        ⟨3, 3, List.replicate 9 ⟨100, 100, 100, 255⟩⟩
        [(0, 0, 0)]).data.getD 0 default).rgb = (100, 100, 100) ∧
    ((cleanEdges
        ⟨3, 3, List.replicate 9 ⟨100, 100, 100, 255⟩⟩
        [(0, 0, 0)]).data.getD 4 default).rgb = (0, 0, 0) := by
  refine ⟨by decide, by decide, by decide, by decide, by decide⟩

/-- C9 amended: `cleanEdges` only reassigns interior pixels
(`1 ≤ x ≤ width - 2`, `1 ≤ y ≤ height - 2`).  An interior pixel farther
than distance 5 from every palette color gets the plurality (first-maximal
in first-occurrence order) nearest-palette-color of its 8 neighbors
written into its color channels (alpha kept); every other pixel — border
pixels included, whatever their distance — keeps its value. -/
theorem C9_amended_cleanEdges_interior_only (buf : ImageBuffer)
    (palette : List RGB) (x y : ℕ)
    (hwf : buf.data.length = buf.width * buf.height)
    (hx : x < buf.width) (hy : y < buf.height) :
    (cleanEdges buf palette).data.getD (y * buf.width + x) default =
      (if 1 ≤ x ∧ x + 1 < buf.width ∧ 1 ≤ y ∧ y + 1 < buf.height ∧
          farFromPalette
            (buf.data.getD (y * buf.width + x) default).rgb palette then
        { buf.data.getD (y * buf.width + x) default with
          r := (pluralityColor palette
            (tallyColors (neighborNearestColors buf palette x y))).1,
          g := (pluralityColor palette
            (tallyColors (neighborNearestColors buf palette x y))).2.1,
          b := (pluralityColor palette
            (tallyColors (neighborNearestColors buf palette x y))).2.2 }
      else buf.data.getD (y * buf.width + x) default) := by
  have hw0 : 0 < buf.width := by omega
  have hidx : y * buf.width + x < buf.data.length := by
    rw [hwf]
    have h1 : (y + 1) * buf.width = y * buf.width + buf.width := by ring
    have h2 : (y + 1) * buf.width ≤ buf.height * buf.width :=
      Nat.mul_le_mul_right _ (by omega)
    have h3 : buf.height * buf.width = buf.width * buf.height :=
      Nat.mul_comm _ _
    omega
  have hdata : (cleanEdges buf palette).data =
      (buf.data.enumFrom 0).map fun ip => cleanPixel buf palette ip.1 ip.2 :=
    rfl
  rw [hdata, getD_map_enumFrom _ buf.data 0 _ hidx, Nat.zero_add]
  have hmod : (y * buf.width + x) % buf.width = x := by
    rw [show y * buf.width + x = x + buf.width * y from by ring,
      Nat.add_mul_mod_self_left]
    exact Nat.mod_eq_of_lt hx
  have hdiv : (y * buf.width + x) / buf.width = y := by
    rw [show y * buf.width + x = x + buf.width * y from by ring,
      Nat.add_mul_div_left _ _ hw0, Nat.div_eq_of_lt hx]
    exact Nat.zero_add y
  unfold cleanPixel
  simp only [hmod, hdiv]

/-- A 3×3 all-gray demonstration buffer and a single-color palette for the
`cleanEdges` theorems. -/
def demoBuf3 : ImageBuffer := ⟨3, 3, List.replicate 9 ⟨100, 100, 100, 255⟩⟩

def demoPal1 : List RGB := [(0, 0, 0)]

/-- Witness for the amended C9 at the center pixel of a concrete 3×3
buffer. -/
theorem C9_amended_cleanEdges_interior_only_witness :
    (demoBuf3.data.length = demoBuf3.width * demoBuf3.height ∧
      1 < demoBuf3.width ∧ 1 < demoBuf3.height) ∧
    (cleanEdges demoBuf3 demoPal1).data.getD (1 * demoBuf3.width + 1)
        default =
      (if 1 ≤ 1 ∧ 1 + 1 < demoBuf3.width ∧ 1 ≤ 1 ∧ 1 + 1 < demoBuf3.height ∧
          farFromPalette
            (demoBuf3.data.getD (1 * demoBuf3.width + 1) default).rgb
            demoPal1 then
        { demoBuf3.data.getD (1 * demoBuf3.width + 1) default with
          r := (pluralityColor demoPal1
            (tallyColors (neighborNearestColors demoBuf3 demoPal1 1 1))).1,
          g := (pluralityColor demoPal1
            (tallyColors (neighborNearestColors demoBuf3 demoPal1 1 1))).2.1,
          b := (pluralityColor demoPal1
            (tallyColors (neighborNearestColors demoBuf3 demoPal1 1 1))).2.2 }
      else demoBuf3.data.getD (1 * demoBuf3.width + 1) default) :=
  ⟨⟨by decide, by decide, by decide⟩,
   C9_amended_cleanEdges_interior_only demoBuf3 demoPal1 1 1 (by decide)
     (by decide) (by decide)⟩
